import Mathlib

/-!
# Verification of the vedo calculator core (`backend/app/services/calculator.py`)

This file gives a shallow embedding of the item-grouping and cutoff-assignment
engine of the repository and proves the specified properties about it.

Modelling conventions:
* Python strings are `String` / `List Char`; `\w` and `\d` of the identifier
  regex are modelled over characters by `Char.isAlphanum || '_'` and
  `Char.isDigit` respectively.
* Exact numeric values (`Ширина, м` and friends, produced by `/ 1000` and
  `round(_, 2)`) are modelled as rationals with round-half-to-even; the
  binary floating-point representation is idealised away.
* A pandas `DataFrame` built from a list of row dicts is modelled as a
  `List` of typed rows; `pd.DataFrame([])` has no columns at all, which is
  modelled at the pipeline level (see `process_file_txt`).
* Fallible Python code (raising `ValueError` / `KeyError`) is modelled with
  `Except String`.
-/

set_option maxRecDepth 100000

namespace Vedo

instance {ε α : Type} [DecidableEq ε] [DecidableEq α] : DecidableEq (Except ε α) := fun a b =>
  match a, b with
  | .ok x, .ok y => if h : x = y then isTrue (by rw [h]) else isFalse (by simp [h])
  | .error e, .error f => if h : e = f then isTrue (by rw [h]) else isFalse (by simp [h])
  | .ok _, .error _ => isFalse (by simp)
  | .error _, .ok _ => isFalse (by simp)

/-! ## Name parser (`CalculatorService.parse_item_name`)

The source matches `re.match(r'(\w+)_(\d+)x(\d+)x(\d+)_(\d+)', item_name)`:
anchored at the start of the string only, with no `$`, so trailing characters
after a matching prefix are accepted.  We model Python's backtracking for this
concrete pattern: the greedy `(\w+)` first takes the maximal word-character
run and then backs off one character at a time; each `(\d+)` is deterministic
because the following literal (`x` or `_`) is not a digit. -/

/-- Python's `\w` character class (ASCII fragment): letters, digits, `_`. -/
def isWordChar (c : Char) : Bool := c.isAlphanum || c = '_'

/-- Greedy match of one `(\d+)` group: the maximal digit run at the start of
`cs` (which must be nonempty) and the remainder. -/
def digitsRun (cs : List Char) : Option (List Char × List Char) :=
  match cs.takeWhile Char.isDigit with
  | [] => none
  | d => some (d, cs.dropWhile Char.isDigit)

/-- Greedy match of the regex tail `(\d+)x(\d+)x(\d+)_(\d+)` at the start of
`cs`; trailing characters after the final digit group are allowed (no `$`
anchor in the source pattern).  Returns the four digit groups.  Each `(\d+)`
is the maximal digit run: a shorter choice would put a digit where the
following literal `x`/`_` is required, so no backtracking can help. -/
def matchTail (cs : List Char) : Option (List Char × List Char × List Char × List Char) :=
  match digitsRun cs with
  | some (d1, c1 :: r1) =>
    if c1 = 'x' then
      match digitsRun r1 with
      | some (d2, c2 :: r2) =>
        if c2 = 'x' then
          match digitsRun r2 with
          | some (d3, c3 :: r3) =>
            if c3 = '_' then
              match digitsRun r3 with
              | some (d4, _) => some (d1, d2, d3, d4)
              | none => none
            else none
          | _ => none
        else none
      | _ => none
    else none
  | _ => none

/-- Backtracking search for the group `(\w+)`: try the name length `m`,
then `m - 1`, …, `1`.  `s.take m` is the candidate name; the character at
position `m` must be the literal `_` and the rest must match the tail. -/
def tryName (s : List Char) : Nat → Option (List Char × List Char × List Char × List Char × List Char)
  | 0 => none
  | m + 1 =>
    match s.drop (m + 1) with
    | c :: rest =>
      if c = '_' then
        match matchTail rest with
        | some (d1, d2, d3, d4) => some (s.take (m + 1), d1, d2, d3, d4)
        | none => tryName s m
      else tryName s m
    | [] => tryName s m

/-- Length of the maximal word-character run at the start of `s`: the first
candidate length Python's greedy `(\w+)` tries. -/
def wordRunLen (s : List Char) : Nat := (s.takeWhile isWordChar).length

/-- Model of `re.match(r'(\w+)_(\d+)x(\d+)x(\d+)_(\d+)', s)`: the five captured groups,
or `none` when there is no match anchored at the start. -/
def pyMatch (s : List Char) : Option (List Char × List Char × List Char × List Char × List Char) :=
  tryName s (wordRunLen s)

/-- Decimal value of a digit string, as computed by Python `int`. -/
def natOfDigits (ds : List Char) : Nat := ds.foldl (fun a c => 10 * a + (c.toNat - 48)) 0

/-- Parsed identifier fields (the dict returned by `parse_item_name`). -/
structure ItemSpec where
  name : String
  width_mm : Nat
  length_mm : Nat
  projection_mm : Nat
  form_type : Nat
deriving Repr, DecidableEq

/-- Model of `CalculatorService.parse_item_name`: match the identifier pattern and
convert the numeric groups with `int`; raise `ValueError` (modelled as
`Except.error`) naming the identifier when there is no match. -/
def parse_item_name (item_name : String) : Except String ItemSpec :=
  match pyMatch item_name.toList with
  | some (n, d1, d2, d3, d4) =>
    .ok { name := String.mk n
          width_mm := natOfDigits d1
          length_mm := natOfDigits d2
          projection_mm := natOfDigits d3
          form_type := natOfDigits d4 }
  | none => .error ("Некорректный формат названия: " ++ item_name)

/-! ### Spec-side identifier grammar

The spec (§6) gives the identifier grammar as `^(\w+)_(\d+)x(\d+)x(\d+)_(\d+)$`
and states that the *entire* identifier must conform.  `GrammarFull` is that
grammar as a predicate on character lists; `GrammarStartMatch` is the weaker
"some prefix anchored at the start conforms" predicate (what `re.match`
without `$` actually tests). -/

/-- Side conditions on the four numeric groups of the grammar: each is a
nonempty digit string. -/
def DigitGroups (d1 d2 d3 d4 : List Char) : Prop :=
  d1 ≠ [] ∧ d1.all Char.isDigit ∧ d2 ≠ [] ∧ d2.all Char.isDigit ∧
  d3 ≠ [] ∧ d3.all Char.isDigit ∧ d4 ≠ [] ∧ d4.all Char.isDigit

/-- Modelled from the spec: the full identifier grammar
`^(\w+)_(\d+)x(\d+)x(\d+)_(\d+)$` — the whole string decomposes as
name, `_`, three numbers separated by `x`, `_`, form type. -/
def GrammarFull (cs : List Char) : Prop :=
  ∃ n d1 d2 d3 d4, n ≠ [] ∧ n.all isWordChar ∧ DigitGroups d1 d2 d3 d4 ∧
    cs = n ++ '_' :: (d1 ++ 'x' :: (d2 ++ 'x' :: (d3 ++ '_' :: d4)))

/-- Some prefix of the string, anchored at position 0, matches the grammar:
the success condition of the source's `re.match` call (no `$` anchor). -/
def GrammarStartMatch (cs : List Char) : Prop :=
  ∃ pre rest, cs = pre ++ rest ∧ GrammarFull pre

/-! ## Data model

`Row` is one row of the ingested table (the dict built in `parse_txt_file`,
resp. one row of the tabular input).  A quantity cell is `some n` when it
holds a numeric value and `none` when it is non-numeric (Python `int` raises
`ValueError` on the latter).  `CutRow` is a row after `assign_cutoffs`
(`width_mm`/`length_mm` dropped, `Отсечка`/`Тип отсечки` added); `FinalRow`
additionally has the three derived columns, listed in the fixed output order
of `reorder_columns`. -/

structure Row where
  itemName : String      -- 'Наименование изделия'
  unit : String          -- 'Ед. изм.'
  quantity : Option Int  -- 'Количество'
  width_m : ℚ            -- 'Ширина, м'
  length_m : ℚ           -- 'Длина, м'
  projection_m : ℚ       -- 'Проекция, м'
  form_type : Nat        -- 'Тип формы'
  width_mm : Nat
  length_mm : Nat
deriving Repr, DecidableEq

structure CutRow where
  itemName : String
  unit : String
  quantity : Option Int
  width_m : ℚ
  length_m : ℚ
  projection_m : ℚ
  form_type : Nat
  cutoff_id : Nat        -- 'Отсечка'
  cutoff_type : Int      -- 'Тип отсечки'
deriving Repr, DecidableEq

structure FinalRow where
  itemName : String
  unit : String
  quantity : Option Int
  width_m : ℚ
  length_m : ℚ
  unroll_m2 : ℚ              -- 'Развертка, м'
  total_area_m2 : ℚ          -- 'Общая площадь, м'
  projection_m : ℚ
  projection_area_m2 : ℚ     -- 'Площадь проекции, м'
  form_type : Nat
  cutoff_id : Nat
  cutoff_type : Int
deriving Repr, DecidableEq

/-- The configuration dictionaries `FORM_CAPACITY` and `CUTOFF_TYPES` built in
`CalculatorService.__init__`: partial maps from a form type to its capacity,
resp. its cutoff-type constant. -/
structure Config where
  capacity : Nat → Option Int
  ctype : Nat → Option Int

/-- The dictionaries obtained from the default `Settings` values
(`FORM_CAPACITY_{1,2,3} = 15, 20, 10`, `CUTOFF_TYPE_{1,2,3} = 8, 9, 10`). -/
def defaultConfig : Config where
  capacity k := if k = 1 then some 15 else if k = 2 then some 20 else if k = 3 then some 10 else none
  ctype k := if k = 1 then some 8 else if k = 2 then some 9 else if k = 3 then some 10 else none

/-- Python dictionary subscript `d[k]`: the value, or a `KeyError`. -/
def keyLookup {β : Type} (d : Nat → Option β) (k : Nat) : Except String β :=
  match d k with
  | some v => .ok v
  | none => .error ("KeyError: " ++ toString k)

/-- Python `int(cell)` on a quantity cell: `ValueError` on a non-numeric one. -/
def toIntQ (q : Option Int) : Except String Int :=
  match q with
  | some n => .ok n
  | none => .error "invalid literal for int()"

/-! ## Rounding

`round(x, 2)` in Python / numpy is round-half-to-even at two decimal places;
we model it exactly over `ℚ` (the floating-point representation is idealised
away). -/

/-- Round-half-to-even to an integer. -/
def roundHalfEven (x : ℚ) : ℤ :=
  if x - ⌊x⌋ < 1/2 then ⌊x⌋
  else if 1/2 < x - ⌊x⌋ then ⌊x⌋ + 1
  else if ⌊x⌋ % 2 = 0 then ⌊x⌋ else ⌊x⌋ + 1

/-- Model of `round(x, 2)`: round-half-to-even at two decimal places. -/
def round2 (x : ℚ) : ℚ := (roundHalfEven (x * 100) : ℚ) / 100

/-! ## Token-list ingestion (`CalculatorService.parse_txt_file`) -/

/-- Python `str.strip()`: drop leading and trailing whitespace. -/
def pyStrip (s : List Char) : List Char :=
  ((s.dropWhile Char.isWhitespace).reverse.dropWhile Char.isWhitespace).reverse

/-- Python `str.split('\n')`: split at every newline, keeping empty pieces. -/
def splitOnNl : List Char → List (List Char)
  | [] => [[]]
  | c :: cs =>
    match splitOnNl cs with
    | [] => [[]]
    | t :: ts => if c = '\n' then [] :: t :: ts else (c :: t) :: ts

/-- Python `str.split()` (no argument): the maximal runs of non-whitespace
characters, in order.  `cur` is the (reversed) token being accumulated. -/
def wsTokensAux : List Char → List Char → List String
  | [], cur => if cur.isEmpty then [] else [String.mk cur.reverse]
  | c :: cs, cur =>
    if c.isWhitespace then
      if cur.isEmpty then wsTokensAux cs [] else String.mk cur.reverse :: wsTokensAux cs []
    else wsTokensAux cs (c :: cur)

def wsTokens (s : List Char) : List String := wsTokensAux s []

/-- The item tokens of a TXT upload: `content.strip().split('\n')`, then
`line.strip().split()` for every line, concatenated (source lines 63–67). -/
def tokensOf (content : String) : List String :=
  (splitOnNl (pyStrip content.toList)).flatMap (fun line => wsTokens (pyStrip line))

/-- One step of the counting loop `item_counts[item] = item_counts.get(item, 0) + 1`
on a Python dict modelled as an insertion-ordered association list. -/
def bumpCount : List (String × Nat) → String → List (String × Nat)
  | [], t => [(t, 1)]
  | (k, n) :: rest, t => if k = t then (k, n + 1) :: rest else (k, n) :: bumpCount rest t

/-- The occurrence counts of the items, keyed in first-occurrence order. -/
def itemCounts (items : List String) : List (String × Nat) := items.foldl bumpCount []

/-- The record built for one unique identifier with its occurrence count
(source lines 75–92). -/
def recordOfItem (item_name : String) (count : Nat) : Except String Row := do
  let p ← parse_item_name item_name
  .ok { itemName := p.name ++ "_" ++ toString p.width_mm ++ "x" ++ toString p.length_mm
        unit := "шт."
        quantity := some (count : Int)
        width_m := round2 ((p.width_mm : ℚ) / 1000)
        length_m := round2 ((p.length_mm : ℚ) / 1000)
        projection_m := round2 ((p.projection_mm : ℚ) / 1000)
        form_type := p.form_type
        width_mm := p.width_mm
        length_mm := p.length_mm }

/-- Model of `CalculatorService.parse_txt_file`: tokenize, count occurrences per unique
identifier, and build one record per unique identifier.  A parse failure
aborts the whole call. -/
def parse_txt_file (content : String) : Except String (List Row) :=
  (itemCounts (tokensOf content)).mapM (fun tc => recordOfItem tc.1 tc.2)

/-! ## Cutoff assignment (`CalculatorService.assign_cutoffs`)

The frame is sorted with
`df.sort_values(['Тип формы', 'width_mm', 'Длина, м'], ascending=[True, True, False])`
(a stable lexicographic sort: pandas uses a stable `lexsort` for multi-column
keys) and grouped with `df.groupby(['Тип формы', 'width_mm'])`, which yields
the groups in ascending key order, each group keeping the frame's row order.
We model the groupby as: stable-sort the rows by the key alone, then split
into maximal runs of equal keys. -/

/-- The comparison realised by the `sort_values` call: form type ascending,
then `width_mm` ascending, then length descending. -/
def SortLe (a b : Row) : Prop :=
  a.form_type < b.form_type ∨ (a.form_type = b.form_type ∧
    (a.width_mm < b.width_mm ∨ (a.width_mm = b.width_mm ∧ b.length_m ≤ a.length_m)))

instance : DecidableRel SortLe := fun a b =>
  inferInstanceAs (Decidable (a.form_type < b.form_type ∨ (a.form_type = b.form_type ∧
    (a.width_mm < b.width_mm ∨ (a.width_mm = b.width_mm ∧ b.length_m ≤ a.length_m)))))

instance : IsTotal Row SortLe where
  total a b := by
    rcases Nat.lt_trichotomy a.form_type b.form_type with h | h | h
    · exact Or.inl (Or.inl h)
    · rcases Nat.lt_trichotomy a.width_mm b.width_mm with h' | h' | h'
      · exact Or.inl (Or.inr ⟨h, Or.inl h'⟩)
      · rcases le_total b.length_m a.length_m with h'' | h''
        · exact Or.inl (Or.inr ⟨h, Or.inr ⟨h', h''⟩⟩)
        · exact Or.inr (Or.inr ⟨h.symm, Or.inr ⟨h'.symm, h''⟩⟩)
      · exact Or.inr (Or.inr ⟨h.symm, Or.inl h'⟩)
    · exact Or.inr (Or.inl h)

instance : IsTrans Row SortLe where
  trans a b c hab hbc := by
    rcases hab with h1 | ⟨e1, hab⟩
    · rcases hbc with h2 | ⟨e2, _⟩
      · exact Or.inl (h1.trans h2)
      · exact Or.inl (e2 ▸ h1)
    · rcases hbc with h2 | ⟨e2, hbc⟩
      · exact Or.inl (e1 ▸ h2)
      · refine Or.inr ⟨e1.trans e2, ?_⟩
        rcases hab with h1 | ⟨f1, hab⟩
        · rcases hbc with h2 | ⟨f2, _⟩
          · exact Or.inl (h1.trans h2)
          · exact Or.inl (f2 ▸ h1)
        · rcases hbc with h2 | ⟨f2, hbc⟩
          · exact Or.inl (f1 ▸ h2)
          · exact Or.inr ⟨f1.trans f2, hbc.trans hab⟩

/-- The grouping key of `df.groupby(['Тип формы', 'width_mm'])`. -/
def rowKey (r : Row) : Nat × Nat := (r.form_type, r.width_mm)

/-- Ascending lexicographic order on grouping keys. -/
def KeyLe (a b : Row) : Prop :=
  a.form_type < b.form_type ∨ (a.form_type = b.form_type ∧ a.width_mm ≤ b.width_mm)

instance : DecidableRel KeyLe := fun a b =>
  inferInstanceAs (Decidable (a.form_type < b.form_type ∨
    (a.form_type = b.form_type ∧ a.width_mm ≤ b.width_mm)))

instance : IsTotal Row KeyLe where
  total a b := by
    rcases Nat.lt_trichotomy a.form_type b.form_type with h | h | h
    · exact Or.inl (Or.inl h)
    · rcases Nat.le_total a.width_mm b.width_mm with h' | h'
      · exact Or.inl (Or.inr ⟨h, h'⟩)
      · exact Or.inr (Or.inr ⟨h.symm, h'⟩)
    · exact Or.inr (Or.inl h)

instance : IsTrans Row KeyLe where
  trans a b c hab hbc := by
    rcases hab with h1 | ⟨e1, hab⟩
    · rcases hbc with h2 | ⟨e2, _⟩
      · exact Or.inl (h1.trans h2)
      · exact Or.inl (e2 ▸ h1)
    · rcases hbc with h2 | ⟨e2, hbc⟩
      · exact Or.inl (e1 ▸ h2)
      · exact Or.inr ⟨e1.trans e2, hab.trans hbc⟩

/-- Split a list into its maximal runs of elements sharing a key, pairing each
run with its key. -/
def chunkBy {α κ : Type} [DecidableEq κ] (key : α → κ) : List α → List (κ × List α)
  | [] => []
  | a :: t =>
    match chunkBy key t with
    | [] => [(key a, [a])]
    | (k, g) :: more => if key a = k then (k, a :: g) :: more else (key a, [a]) :: (k, g) :: more

/-- Model of `df.groupby(['Тип формы', 'width_mm'])` with the default `sort=True`:
groups in ascending key order, rows of each group in frame order; equivalently,
stable-sort the rows by the key and split into maximal runs of equal keys. -/
def pandas_groupby (l : List Row) : List ((Nat × Nat) × List Row) :=
  chunkBy rowKey (l.insertionSort KeyLe)

/-- One iteration of the packing loop (source lines 157–166): state is
`(subgroups, current_subgroup, current_total)`. -/
def packStep (capacity : Int) (st : List (List Row) × List Row × Int) (r : Row) :
    Except String (List (List Row) × List Row × Int) := do
  let count ← toIntQ r.quantity
  let (subgroups, current, total) := st
  if total + count > capacity then
    pure (if current.isEmpty then subgroups else subgroups ++ [current], [r], count)
  else
    pure (subgroups, current ++ [r], total + count)

/-- The sequential first-fit accumulation over one group (source lines
153–169), including closing the still-open subgroup after the loop. -/
def packGroup (capacity : Int) (rows : List Row) : Except String (List (List Row)) := do
  let st ← rows.foldlM (packStep capacity) ([], [], 0)
  pure (if st.2.1.isEmpty then st.1 else st.1 ++ [st.2.1])

/-- Model of `max(range(len(subgroup)), key=lambda i: subgroup[i]['Длина, м'])`:
the first index attaining the maximal length (Python `max` keeps the first
of several arguments with equal keys). -/
def maxLenIdxAux : List Row → ℚ → Nat → Nat → Nat
  | [], _, best, _ => best
  | r :: t, bestVal, best, i =>
    if bestVal < r.length_m then maxLenIdxAux t r.length_m i (i + 1)
    else maxLenIdxAux t bestVal best (i + 1)

def maxLenIdx : List Row → Nat
  | [] => 0
  | r :: t => maxLenIdxAux t r.length_m 0 1

/-- Emit one subgroup (source lines 171–180): every row gets the current
cutoff id; the first row of maximal length gets cutoff type `0`, all others
the form type's configured constant. -/
def markSubgroup (ctype : Int) (cid : Nat) (sub : List Row) : List CutRow :=
  sub.mapIdx (fun i r =>
    { itemName := r.itemName
      unit := r.unit
      quantity := r.quantity
      width_m := r.width_m
      length_m := r.length_m
      projection_m := r.projection_m
      form_type := r.form_type
      cutoff_id := cid
      cutoff_type := if i = maxLenIdx sub then 0 else ctype })

/-- The body of the per-group loop (source lines 148–181): look up capacity
and cutoff type for the group's form type, pack the group, then emit each
subgroup with the next global cutoff id. -/
def groupStep (cfg : Config) (st : List CutRow × Nat) (kg : (Nat × Nat) × List Row) :
    Except String (List CutRow × Nat) := do
  let capacity ← keyLookup cfg.capacity kg.1.1
  let ctype ← keyLookup cfg.ctype kg.1.1
  let subs ← packGroup capacity kg.2
  pure (subs.foldl (fun acc sub => (acc.1 ++ markSubgroup ctype acc.2 sub, acc.2 + 1)) st)

/-- Model of `CalculatorService.assign_cutoffs`: sort, group, pack each group by
first-fit, emit the subgroups with sequential global cutoff ids starting at 1,
and drop the raw-millimeter key columns (`CutRow` has no such fields). -/
def assign_cutoffs (cfg : Config) (df : List Row) : Except String (List CutRow) := do
  let st ← (pandas_groupby (df.insertionSort SortLe)).foldlM (groupStep cfg) ([], 1)
  pure st.1

/-! ## Derived columns and final projection -/

/-- The quantity cell as the number used in arithmetic; rows reaching
`calculate_derived_columns` always carry a numeric cell (`int` would have
raised during packing otherwise), so the `0` default is never exercised. -/
def qcell (q : Option Int) : ℚ := ((q.getD 0 : Int) : ℚ)

/-- One row with the three derived columns `Развертка, м`, `Общая площадь, м`
and `Площадь проекции, м` added (source lines 198–202). -/
def derivedRow (r : CutRow) : FinalRow :=
  let unroll := round2 (r.width_m * r.length_m)
  { itemName := r.itemName
    unit := r.unit
    quantity := r.quantity
    width_m := r.width_m
    length_m := r.length_m
    unroll_m2 := unroll
    total_area_m2 := round2 (unroll * qcell r.quantity)
    projection_m := r.projection_m
    projection_area_m2 := round2 (r.length_m * r.projection_m * qcell r.quantity)
    form_type := r.form_type
    cutoff_id := r.cutoff_id
    cutoff_type := r.cutoff_type }

/-- Model of `CalculatorService.calculate_derived_columns`: add the three derived
columns.  The input is the frame `pd.DataFrame(new_rows)` built by
`assign_cutoffs`; when that row list is empty the frame has no columns at
all, and the first column read `df['Ширина, м']` (source line 198) raises a
`KeyError`. -/
def calculate_derived_columns (df : List CutRow) : Except String (List FinalRow) :=
  if df.isEmpty then .error "KeyError: 'Ширина, м'"
  else .ok (df.map derivedRow)

/-- Model of `CalculatorService.reorder_columns`: fix the final column set and order.
`FinalRow` already lists exactly those columns in that order, so the
projection is the identity on the model. -/
def reorder_columns (df : List FinalRow) : List FinalRow := df

/-- The pipeline stages shared by both ingestion modes (source lines 246–248):
cutoff assignment, derived columns (failing on the column-less empty frame),
column projection. -/
def process_table (cfg : Config) (df : List Row) : Except String (List FinalRow) := do
  let cut ← assign_cutoffs cfg df
  let fin ← calculate_derived_columns cut
  pure (reorder_columns fin)

/-- Model of `CalculatorService.process_file` on a `.txt` upload with its content:
token-list ingestion followed by the shared pipeline.  When the ingested
record list is empty, `pd.DataFrame([])` has no columns at all, and the
`sort_values` call inside `assign_cutoffs` raises a `KeyError` for the
missing sort column; the guard models exactly that failure. -/
def process_file_txt (cfg : Config) (content : String) : Except String (List FinalRow) := do
  let rows ← parse_txt_file content
  if rows.isEmpty then .error "KeyError: 'Тип формы'"
  else process_table cfg rows

/-! ## Spec-side models and proof-level helpers -/

/-- Predicate used while reasoning about the backtracking name search: name
length `k` works — the character at position `k` is `_` and the tail matches. -/
def validAt (s : List Char) (k : Nat) : Bool :=
  match s.drop k with
  | c :: r => c = '_' && (matchTail r).isSome
  | [] => false

/-- Decimal digit as a character. -/
def digitChar : Nat → Char
  | 0 => '0'
  | 1 => '1'
  | 2 => '2'
  | 3 => '3'
  | 4 => '4'
  | 5 => '5'
  | 6 => '6'
  | 7 => '7'
  | 8 => '8'
  | _ => '9'

/-- Canonical decimal digits of a natural number (fuel-based so that it is
structurally recursive; `natDigits` supplies sufficient fuel). -/
def natDigitsAux : Nat → Nat → List Char
  | 0, _ => []
  | fuel + 1, n => if n < 10 then [digitChar n] else natDigitsAux fuel (n / 10) ++ [digitChar (n % 10)]

def natDigits (n : Nat) : List Char := natDigitsAux (n + 1) n

/-- Modelled from the spec (§8, parse round-trip): rebuild
`name_WIDTHxLENGTHxPROJECTION_FORMTYPE` from the parsed fields, with the
numeric fields in canonical decimal. -/
def reconstructIdent (sp : ItemSpec) : String :=
  String.mk (sp.name.toList ++ '_' :: (natDigits sp.width_mm ++ 'x' ::
    (natDigits sp.length_mm ++ 'x' :: (natDigits sp.projection_mm ++ '_' :: natDigits sp.form_type))))

/-- First-occurrence deduplication: the unique elements in the order of their
first occurrences (the key order of a Python dict filled by a counting loop). -/
def dedupFirst : List String → List String
  | [] => []
  | t :: rest => t :: (dedupFirst rest).filter (fun s => s ≠ t)

/-- Count stored under a key in an association list (0 when absent). -/
def lookupCount (l : List (String × Nat)) (t : String) : Nat :=
  match l with
  | [] => 0
  | (k, c) :: rest => if k = t then c else lookupCount rest t

/-- Integer value of a (numeric) quantity cell, used by the spec-side
first-fit model: the spec's records carry integer quantities. -/
def qval (r : Row) : Int := r.quantity.getD 0

/-- Integer value of an output row's quantity cell. -/
def qcv (x : CutRow) : Int := x.quantity.getD 0

/-- Modelled from the spec (§4.3 step 3): sequential first-fit accumulation.
Maintain the current open bin and its running total (initially 0); a record
whose quantity would push the total over `capacity` closes the current bin
(if non-empty) and seeds a new bin with its own quantity as the total; any
other record is appended to the open bin; after the last record the open bin
is closed. -/
def spec_first_fit_aux (capacity : Int) (qty : Row → Int) :
    List Row → List Row → Int → List (List Row)
  | [], current, _ => if current.isEmpty then [] else [current]
  | r :: rest, current, total =>
    if total + qty r > capacity then
      (if current.isEmpty then [] else [current]) ++ spec_first_fit_aux capacity qty rest [r] (qty r)
    else
      spec_first_fit_aux capacity qty rest (current ++ [r]) (total + qty r)

def spec_first_fit (capacity : Int) (qty : Row → Int) (rows : List Row) : List (List Row) :=
  spec_first_fit_aux capacity qty rows [] 0

/-- Modelled from the spec (§4.3 steps 1–2): sort all records by (form type
ascending, width ascending, length descending) and group the sorted sequence
by (form type, width) into its maximal runs, without re-sorting within a
group. -/
def spec_sorted_groups (df : List Row) : List ((Nat × Nat) × List Row) :=
  chunkBy rowKey (df.insertionSort SortLe)

/-- The closed bins of the given groups in emission order, each paired with
its form type's cutoff-type constant. -/
def binsOfGroups (cfg : Config) (groups : List ((Nat × Nat) × List Row)) : List (Int × List Row) :=
  groups.flatMap (fun kg =>
    (spec_first_fit ((cfg.capacity kg.1.1).getD 0) qval kg.2).map
      (fun sub => ((cfg.ctype kg.1.1).getD 0, sub)))

/-- All closed bins of the whole run, in emission order. -/
def binsOf (cfg : Config) (df : List Row) : List (Int × List Row) :=
  binsOfGroups cfg (spec_sorted_groups df)

/-- Emit the bins in order, assigning consecutive cutoff ids from `c`. -/
def emitAll : List (Int × List Row) → Nat → List CutRow
  | [], _ => []
  | (t, sub) :: rest, c => markSubgroup t c sub ++ emitAll rest (c + 1)

/-- The fields of a record that the cutoff assignment merely carries along:
everything except the raw-millimeter grouping keys (dropped from the output)
and the assigned cutoff id / cutoff type. -/
structure Core where
  itemName : String
  unit : String
  quantity : Option Int
  width_m : ℚ
  length_m : ℚ
  projection_m : ℚ
  form_type : Nat
deriving Repr, DecidableEq

def coreOfRow (r : Row) : Core :=
  ⟨r.itemName, r.unit, r.quantity, r.width_m, r.length_m, r.projection_m, r.form_type⟩

def coreOfCut (x : CutRow) : Core :=
  ⟨x.itemName, x.unit, x.quantity, x.width_m, x.length_m, x.projection_m, x.form_type⟩

/-- Precondition of a successful cutoff assignment: every record's form type
has a configured capacity and cutoff-type constant, and every quantity cell
is numeric. -/
def CfgOk (cfg : Config) (df : List Row) : Prop :=
  ∀ r ∈ df, (cfg.capacity r.form_type).isSome ∧ (cfg.ctype r.form_type).isSome ∧ r.quantity.isSome

/-! ## Concrete inputs used by witnesses and counterexamples -/

def wRowA : Row :=
  ⟨"alpha_500x300", "шт.", some 10, mkRat 50 100, mkRat 30 100, mkRat 5 100, 1, 500, 300⟩

def wRowB : Row :=
  ⟨"beta_500x250", "шт.", some 8, mkRat 50 100, mkRat 25 100, mkRat 5 100, 1, 500, 250⟩

def wRowC : Row :=
  ⟨"gamma_600x200", "шт.", some 20, mkRat 60 100, mkRat 5 100, mkRat 5 100, 2, 600, 200⟩

/-- A three-record table: the first group (form 1, width 500) packs into two
bins (10 + 8 > 15), the second group is a single bin. -/
def wDf : List Row := [wRowA, wRowB, wRowC]

/-- A record with a numeric but non-positive quantity. -/
def zRow : Row :=
  ⟨"z_10x20", "шт.", some 0, mkRat 1 100, mkRat 2 100, mkRat 3 100, 1, 10, 20⟩

/-- The output table the pipeline produces on `wDf` (used by witnesses). -/
def wOut : List FinalRow := (process_table defaultConfig wDf).toOption.getD []

/-- The output table of the cutoff assignment on the witness input. -/
def wCut : List CutRow := emitAll (binsOf defaultConfig wDf) 1

/-- A token text for witnesses: three tokens, two of them equal. -/
def wTxt : String := "a_1x2x3_1 b_2x3x4_2 a_1x2x3_1"

/-! ## Lemmas about the identifier parser -/

theorem takeWhile_append_all {p : Char → Bool} {d : List Char} (l : List Char) (h : d.all p) :
    (d ++ l).takeWhile p = d ++ l.takeWhile p := by
  induction d with
  | nil => simp
  | cons a t ih =>
    simp only [List.all_cons, Bool.and_eq_true] at h
    simp [List.takeWhile_cons, h.1, ih h.2]

theorem dropWhile_append_all {p : Char → Bool} {d : List Char} (l : List Char) (h : d.all p) :
    (d ++ l).dropWhile p = l.dropWhile p := by
  induction d with
  | nil => simp
  | cons a t ih =>
    simp only [List.all_cons, Bool.and_eq_true] at h
    simp [List.dropWhile_cons, h.1, ih h.2]

theorem digitsRun_append {d : List Char} (l : List Char) (hne : d ≠ [])
    (hd : d.all Char.isDigit) :
    digitsRun (d ++ l) = some (d ++ l.takeWhile Char.isDigit, l.dropWhile Char.isDigit) := by
  cases d with
  | nil => exact absurd rfl hne
  | cons a t =>
    unfold digitsRun
    rw [takeWhile_append_all l hd, dropWhile_append_all l hd]
    simp

theorem digitsRun_sound {cs d r : List Char} (h : digitsRun cs = some (d, r)) :
    cs = d ++ r ∧ d ≠ [] ∧ d.all Char.isDigit := by
  unfold digitsRun at h
  cases htw : cs.takeWhile Char.isDigit with
  | nil => rw [htw] at h; exact absurd h (by simp)
  | cons a t =>
    rw [htw] at h
    simp only [Option.some.injEq, Prod.mk.injEq] at h
    obtain ⟨hd, hr⟩ := h
    have hsplit := (List.takeWhile_append_dropWhile Char.isDigit cs).symm
    rw [htw, hd, hr] at hsplit
    refine ⟨hsplit, ?_, ?_⟩
    · rw [← hd]; simp
    · rw [← hd, ← htw]; exact List.all_takeWhile

theorem matchTail_sound {cs d1 d2 d3 d4 : List Char}
    (h : matchTail cs = some (d1, d2, d3, d4)) :
    ∃ rest, DigitGroups d1 d2 d3 d4 ∧
      cs = d1 ++ 'x' :: (d2 ++ 'x' :: (d3 ++ '_' :: (d4 ++ rest))) := by
  unfold matchTail at h
  rcases he1 : digitsRun cs with _ | ⟨e1, r1'⟩ <;> rw [he1] at h
  · simp at h
  rcases r1' with _ | ⟨c1, r1⟩
  · simp at h
  dsimp only at h
  by_cases hc1 : c1 = 'x'
  swap
  · simp [hc1] at h
  rw [if_pos hc1] at h
  rcases he2 : digitsRun r1 with _ | ⟨e2, r2'⟩ <;> rw [he2] at h
  · simp at h
  rcases r2' with _ | ⟨c2, r2⟩
  · simp at h
  dsimp only at h
  by_cases hc2 : c2 = 'x'
  swap
  · simp [hc2] at h
  rw [if_pos hc2] at h
  rcases he3 : digitsRun r2 with _ | ⟨e3, r3'⟩ <;> rw [he3] at h
  · simp at h
  rcases r3' with _ | ⟨c3, r3⟩
  · simp at h
  dsimp only at h
  by_cases hc3 : c3 = '_'
  swap
  · simp [hc3] at h
  rw [if_pos hc3] at h
  rcases he4 : digitsRun r3 with _ | ⟨e4, r4⟩ <;> rw [he4] at h
  · simp at h
  dsimp only at h
  simp only [Option.some.injEq, Prod.mk.injEq] at h
  obtain ⟨q1, q2, q3, q4⟩ := h
  subst q1; subst q2; subst q3; subst q4
  subst hc1; subst hc2; subst hc3
  obtain ⟨hs1, hn1, ha1⟩ := digitsRun_sound he1
  obtain ⟨hs2, hn2, ha2⟩ := digitsRun_sound he2
  obtain ⟨hs3, hn3, ha3⟩ := digitsRun_sound he3
  obtain ⟨hs4, hn4, ha4⟩ := digitsRun_sound he4
  exact ⟨r4, ⟨hn1, ha1, hn2, ha2, hn3, ha3, hn4, ha4⟩, by rw [hs1, hs2, hs3, hs4]⟩

theorem matchTail_complete {d1 d2 d3 d4 : List Char} (rest : List Char)
    (h : DigitGroups d1 d2 d3 d4) :
    matchTail (d1 ++ 'x' :: (d2 ++ 'x' :: (d3 ++ '_' :: (d4 ++ rest)))) =
      some (d1, d2, d3, d4 ++ rest.takeWhile Char.isDigit) := by
  obtain ⟨h1, a1, h2, a2, h3, a3, h4, a4⟩ := h
  have hx : ('x').isDigit = false := by decide
  have hu : ('_').isDigit = false := by decide
  unfold matchTail
  rw [digitsRun_append _ h1 a1, List.takeWhile_cons, List.dropWhile_cons]
  simp only [hx, Bool.false_eq_true, if_false, List.append_nil, reduceIte]
  rw [digitsRun_append _ h2 a2, List.takeWhile_cons, List.dropWhile_cons]
  simp only [hx, Bool.false_eq_true, if_false, List.append_nil, reduceIte]
  rw [digitsRun_append _ h3 a3, List.takeWhile_cons, List.dropWhile_cons]
  simp only [hu, Bool.false_eq_true, if_false, List.append_nil, reduceIte]
  rw [digitsRun_append _ h4 a4]

theorem validAt_true_iff {s : List Char} {k : Nat} :
    validAt s k = true ↔ ∃ r, s.drop k = '_' :: r ∧ (matchTail r).isSome = true := by
  unfold validAt
  cases hd : s.drop k with
  | nil => simp
  | cons c r =>
    constructor
    · intro h
      simp only [Bool.and_eq_true, decide_eq_true_eq] at h
      exact ⟨r, by rw [h.1], h.2⟩
    · rintro ⟨r', hr', hs'⟩
      obtain ⟨hc, hrr⟩ := List.cons.injEq .. ▸ hr'
      subst hc
      subst hrr
      simp [hs']

theorem tryName_succ_of_invalid {s : List Char} {m : Nat} (hv : validAt s (m + 1) = false) :
    tryName s (m + 1) = tryName s m := by
  cases hd : s.drop (m + 1) with
  | nil =>
    conv_lhs => unfold tryName; rw [hd]
  | cons c rest =>
    by_cases hc : c = '_'
    · cases hmt : matchTail rest with
      | none =>
        conv_lhs => unfold tryName; rw [hd]
        dsimp only
        rw [if_pos hc, hmt]
      | some v =>
        exfalso
        have hT : validAt s (m + 1) = true :=
          validAt_true_iff.mpr ⟨rest, by rw [hd, hc], by rw [hmt]; rfl⟩
        rw [hT] at hv
        simp at hv
    · conv_lhs => unfold tryName; rw [hd]
      dsimp only
      rw [if_neg hc]

theorem tryName_of_validAt_succ {s : List Char} {m : Nat} {r : List Char}
    {d1 d2 d3 d4 : List Char} (hdrop : s.drop (m + 1) = '_' :: r)
    (hmt : matchTail r = some (d1, d2, d3, d4)) :
    tryName s (m + 1) = some (s.take (m + 1), d1, d2, d3, d4) := by
  unfold tryName
  rw [hdrop]
  dsimp only
  rw [if_pos rfl, hmt]

theorem tryName_eq_of_valid {s : List Char} :
    ∀ m k, 1 ≤ k → k ≤ m → validAt s k = true →
      (∀ j, k < j → j ≤ m → validAt s j = false) →
      ∃ r d1 d2 d3 d4, s.drop k = '_' :: r ∧ matchTail r = some (d1, d2, d3, d4) ∧
        tryName s m = some (s.take k, d1, d2, d3, d4) := by
  intro m
  induction m with
  | zero => intro k h1 h2 _ _; omega
  | succ m ih =>
    intro k h1 h2 hv hmax
    by_cases hk : k = m + 1
    · subst hk
      obtain ⟨r, hdrop, hsome⟩ := validAt_true_iff.mp hv
      rcases hmt : matchTail r with _ | ⟨d1, d2, d3, d4⟩
      · rw [hmt] at hsome; exact absurd hsome (by simp)
      exact ⟨r, d1, d2, d3, d4, hdrop, hmt, tryName_of_validAt_succ hdrop hmt⟩
    · have hk2 : k ≤ m := by omega
      have hvm : validAt s (m + 1) = false := hmax (m + 1) (by omega) (le_refl _)
      obtain ⟨r, d1, d2, d3, d4, hdrop, hmt, ht⟩ :=
        ih k h1 hk2 hv (fun j hj1 hj2 => hmax j hj1 (by omega))
      exact ⟨r, d1, d2, d3, d4, hdrop, hmt, by rw [tryName_succ_of_invalid hvm]; exact ht⟩

theorem tryName_sound {s : List Char} :
    ∀ m {n d1 d2 d3 d4 : List Char}, tryName s m = some (n, d1, d2, d3, d4) →
      ∃ k r, 1 ≤ k ∧ k ≤ m ∧ n = s.take k ∧ s.drop k = '_' :: r ∧
        matchTail r = some (d1, d2, d3, d4) := by
  intro m
  induction m with
  | zero => intro n d1 d2 d3 d4 h; exact absurd h (by simp [tryName])
  | succ m ih =>
    intro n d1 d2 d3 d4 h
    cases hvm : validAt s (m + 1) with
    | false =>
      rw [tryName_succ_of_invalid hvm] at h
      obtain ⟨k, r, hk1, hkm, hn, hdrop, hmt⟩ := ih h
      exact ⟨k, r, hk1, by omega, hn, hdrop, hmt⟩
    | true =>
      obtain ⟨r, hdrop, hsome⟩ := validAt_true_iff.mp hvm
      rcases hmt : matchTail r with _ | ⟨e1, e2, e3, e4⟩
      · rw [hmt] at hsome; exact absurd hsome (by simp)
      rw [tryName_of_validAt_succ hdrop hmt] at h
      simp only [Option.some.injEq, Prod.mk.injEq] at h
      obtain ⟨q0, q1, q2, q3, q4⟩ := h
      exact ⟨m + 1, r, by omega, le_refl _, q0.symm, hdrop, by rw [hmt, q1, q2, q3, q4]⟩

theorem tryName_isSome_of_valid {s : List Char} :
    ∀ m k, 1 ≤ k → k ≤ m → validAt s k = true → (tryName s m).isSome = true := by
  intro m
  induction m with
  | zero => intro k h1 h2 _; omega
  | succ m ih =>
    intro k h1 h2 hv
    cases hvm : validAt s (m + 1) with
    | true =>
      obtain ⟨r, hdrop, hsome⟩ := validAt_true_iff.mp hvm
      rcases hmt : matchTail r with _ | ⟨e1, e2, e3, e4⟩
      · rw [hmt] at hsome; exact absurd hsome (by simp)
      rw [tryName_of_validAt_succ hdrop hmt]
      rfl
    | false =>
      rw [tryName_succ_of_invalid hvm]
      have hk : k ≤ m := by
        rcases Nat.lt_or_ge k (m + 1) with h | h
        · omega
        · exfalso
          have : k = m + 1 := by omega
          rw [this] at hv
          rw [hv] at hvm
          simp at hvm
      exact ih k h1 hk hv

theorem word_run_le {n : List Char} (l : List Char) (hw : n.all isWordChar) :
    n.length ≤ wordRunLen (n ++ l) := by
  unfold wordRunLen
  rw [takeWhile_append_all l hw]
  simp

theorem take_all_word {s : List Char} {k : Nat} (h : k ≤ wordRunLen s) :
    (s.take k).all isWordChar := by
  have heq : s.take k = (s.takeWhile isWordChar).take k := by
    conv_lhs => rw [← List.takeWhile_append_dropWhile isWordChar s]
    rw [List.take_append_of_le_length h]
  rw [heq, List.all_eq_true]
  intro x hx
  exact (List.all_eq_true.mp List.all_takeWhile) x (List.take_subset _ _ hx)

theorem validAt_of_shape {n d1 d2 d3 d4 : List Char} (rest : List Char)
    (hg : DigitGroups d1 d2 d3 d4) :
    validAt (n ++ '_' :: (d1 ++ 'x' :: (d2 ++ 'x' :: (d3 ++ '_' :: (d4 ++ rest)))))
      n.length = true := by
  refine validAt_true_iff.mpr ⟨d1 ++ 'x' :: (d2 ++ 'x' :: (d3 ++ '_' :: (d4 ++ rest))), ?_, ?_⟩
  · exact List.drop_left n _
  · rw [matchTail_complete rest hg]; rfl

theorem grammar_shape_assoc (n d1 d2 d3 d4 rest : List Char) :
    (n ++ '_' :: (d1 ++ 'x' :: (d2 ++ 'x' :: (d3 ++ '_' :: d4)))) ++ rest =
      n ++ '_' :: (d1 ++ 'x' :: (d2 ++ 'x' :: (d3 ++ '_' :: (d4 ++ rest)))) := by
  simp [List.append_assoc]

theorem parse_ok_of_pyMatch {s : String} {n d1 d2 d3 d4 : List Char}
    (hp : pyMatch s.toList = some (n, d1, d2, d3, d4)) :
    parse_item_name s = .ok ⟨String.mk n, natOfDigits d1, natOfDigits d2,
      natOfDigits d3, natOfDigits d4⟩ := by
  unfold parse_item_name
  rw [show pyMatch s.toList = some (n, d1, d2, d3, d4) from hp]

theorem parse_error_of_pyMatch {s : String} (hp : pyMatch s.toList = none) :
    parse_item_name s = .error ("Некорректный формат названия: " ++ s) := by
  unfold parse_item_name
  rw [show pyMatch s.toList = none from hp]

theorem parse_isOk_iff (s : String) :
    (parse_item_name s).isOk = true ↔ GrammarStartMatch s.toList := by
  constructor
  · intro h
    cases hp : pyMatch s.toList with
    | none =>
      rw [parse_error_of_pyMatch hp] at h
      exact Bool.noConfusion h
    | some v =>
      obtain ⟨n, d1, d2, d3, d4⟩ := v
      obtain ⟨k, r, hk1, hkm, hn, hdrop, hmt⟩ := tryName_sound _ hp
      obtain ⟨rest, hdg, hshape⟩ := matchTail_sound hmt
      have hslen : s.toList ≠ [] := by
        intro hnil
        rw [hnil] at hdrop
        simp at hdrop
      refine ⟨s.toList.take k ++ '_' :: (d1 ++ 'x' :: (d2 ++ 'x' :: (d3 ++ '_' :: d4))),
        rest, ?_, s.toList.take k, d1, d2, d3, d4, ?_, take_all_word hkm, hdg, rfl⟩
      · rw [grammar_shape_assoc]
        conv_lhs => rw [← List.take_append_drop k s.toList]
        rw [hdrop, hshape]
      · simp only [ne_eq, List.take_eq_nil_iff, not_or]
        exact ⟨by omega, hslen⟩
  · rintro ⟨pre, rest, hcs, n, d1, d2, d3, d4, hne, hw, hdg, hpre⟩
    have hcs' : s.toList = n ++ '_' :: (d1 ++ 'x' :: (d2 ++ 'x' :: (d3 ++ '_' :: (d4 ++ rest)))) := by
      rw [hcs, hpre, grammar_shape_assoc]
    have hv : validAt s.toList n.length = true := by
      rw [hcs']; exact validAt_of_shape rest hdg
    have hkm : n.length ≤ wordRunLen s.toList := by
      rw [hcs']; exact word_run_le _ hw
    have hk1 : 1 ≤ n.length := List.length_pos.mpr hne
    have hsome := tryName_isSome_of_valid (wordRunLen s.toList) n.length hk1 hkm hv
    rcases ht : pyMatch s.toList with _ | ⟨n', d1', d2', d3', d4'⟩
    · rw [show tryName s.toList (wordRunLen s.toList) = none from ht] at hsome
      exact absurd hsome (by simp)
    · rw [parse_ok_of_pyMatch ht]
      rfl

theorem parse_error_of_not_ok (s : String) (h : (parse_item_name s).isOk = false) :
    parse_item_name s = .error ("Некорректный формат названия: " ++ s) := by
  cases hp : pyMatch s.toList with
  | none => exact parse_error_of_pyMatch hp
  | some v =>
    obtain ⟨n, d1, d2, d3, d4⟩ := v
    rw [parse_ok_of_pyMatch hp] at h
    exact Bool.noConfusion h

/-! ## Lemmas: decimal printing and the parse round-trip -/

theorem natOfDigits_append (ds : List Char) (c : Char) :
    natOfDigits (ds ++ [c]) = 10 * natOfDigits ds + (c.toNat - 48) := by
  unfold natOfDigits
  rw [List.foldl_append]
  rfl

theorem digitChar_isDigit {d : Nat} (h : d < 10) : (digitChar d).isDigit = true := by
  interval_cases d <;> decide

theorem digitChar_val {d : Nat} (h : d < 10) : (digitChar d).toNat - 48 = d := by
  interval_cases d <;> decide

theorem natDigitsAux_spec : ∀ fuel n, n < fuel →
    natOfDigits (natDigitsAux fuel n) = n ∧ natDigitsAux fuel n ≠ [] ∧
      (natDigitsAux fuel n).all Char.isDigit := by
  intro fuel
  induction fuel with
  | zero => intro n h; omega
  | succ fuel ih =>
    intro n h
    unfold natDigitsAux
    by_cases h10 : n < 10
    · rw [if_pos h10]
      refine ⟨?_, by simp, by simp [digitChar_isDigit h10]⟩
      show 10 * 0 + ((digitChar n).toNat - 48) = n
      rw [digitChar_val h10]
      omega
    · rw [if_neg h10]
      have hdiv : n / 10 < fuel := by
        have hlt : n / 10 < n := Nat.div_lt_self (by omega) (by omega)
        omega
      obtain ⟨ih1, ih2, ih3⟩ := ih (n / 10) hdiv
      have hm : n % 10 < 10 := Nat.mod_lt _ (by omega)
      refine ⟨?_, by simp, ?_⟩
      · rw [natOfDigits_append, ih1, digitChar_val hm]
        omega
      · rw [List.all_append]
        simp [ih3, digitChar_isDigit hm]

theorem natDigits_spec (n : Nat) :
    natOfDigits (natDigits n) = n ∧ natDigits n ≠ [] ∧ (natDigits n).all Char.isDigit :=
  natDigitsAux_spec (n + 1) n (by omega)

theorem drop_digit_sep {d rest : List Char} {c : Char} (hd : d.all Char.isDigit)
    (_hc : c.isDigit = false) :
    ∀ j r, (d ++ c :: rest).drop j = '_' :: r →
      (j = d.length ∧ c = '_' ∧ r = rest) ∨
        ∃ j', j = d.length + 1 + j' ∧ rest.drop j' = '_' :: r := by
  induction d with
  | nil =>
    intro j r h
    cases j with
    | zero =>
      simp only [List.nil_append, List.drop_zero] at h
      obtain ⟨hch, hr⟩ := List.cons.injEq .. ▸ h
      exact Or.inl ⟨rfl, hch, hr.symm⟩
    | succ j' =>
      right
      refine ⟨j', by simp only [List.length_nil]; omega, ?_⟩
      simpa using h
  | cons a t ih =>
    intro j r h
    simp only [List.all_cons, Bool.and_eq_true] at hd
    cases j with
    | zero =>
      simp only [List.cons_append, List.drop_zero] at h
      obtain ⟨hch, _⟩ := List.cons.injEq .. ▸ h
      exfalso
      have hdig : ('_' : Char).isDigit = true := hch ▸ hd.1
      exact absurd hdig (by decide)
    | succ j' =>
      have h' : (t ++ c :: rest).drop j' = '_' :: r := by simpa using h
      rcases ih hd.2 j' r h' with ⟨e1, e2, e3⟩ | ⟨j'', e1, e2⟩
      · exact Or.inl ⟨by simp [e1], e2, e3⟩
      · exact Or.inr ⟨j'', by simp only [List.length_cons]; omega, e2⟩

theorem drop_digits_no_underscore {d : List Char} (hd : d.all Char.isDigit) :
    ∀ j r, d.drop j ≠ '_' :: r := by
  induction d with
  | nil => intro j r h; simp at h
  | cons a t ih =>
    intro j r h
    simp only [List.all_cons, Bool.and_eq_true] at hd
    cases j with
    | zero =>
      simp only [List.drop_zero] at h
      obtain ⟨hch, _⟩ := List.cons.injEq .. ▸ h
      have hdig : ('_' : Char).isDigit = true := hch ▸ hd.1
      exact absurd hdig (by decide)
    | succ j' => exact ih hd.2 j' r (by simpa using h)

theorem matchTail_digits_none {d : List Char} (hne : d ≠ []) (hd : d.all Char.isDigit) :
    matchTail d = none := by
  have hdr : digitsRun d = some (d, []) := by
    conv_lhs => rw [← List.append_nil d]
    rw [digitsRun_append [] hne hd]
    simp
  unfold matchTail
  rw [hdr]

theorem grammarFull_last_digit {cs : List Char} (h : GrammarFull cs) :
    ∃ c, cs.getLast? = some c ∧ c.isDigit = true := by
  obtain ⟨n, d1, d2, d3, d4, hn, hw, ⟨h1, a1, h2, a2, h3, a3, h4, a4⟩, hshape⟩ := h
  have hx : cs = (n ++ '_' :: (d1 ++ 'x' :: (d2 ++ 'x' :: (d3 ++ ['_'])))) ++ d4 := by
    rw [hshape]
    simp [List.append_assoc]
  refine ⟨d4.getLast h4, ?_, (List.all_eq_true.mp a4) _ (List.getLast_mem h4)⟩
  rw [hx, List.getLast?_append, List.getLast?_eq_getLast _ h4]
  rfl

theorem parse_ok_inv {s : String} {sp : ItemSpec} (h : parse_item_name s = .ok sp) :
    ∃ n d1 d2 d3 d4, pyMatch s.toList = some (n, d1, d2, d3, d4) ∧
      sp = ⟨String.mk n, natOfDigits d1, natOfDigits d2, natOfDigits d3, natOfDigits d4⟩ ∧
      n ≠ [] ∧ n.all isWordChar := by
  cases hp : pyMatch s.toList with
  | none =>
    rw [parse_error_of_pyMatch hp] at h
    exact absurd h (by simp)
  | some v =>
    obtain ⟨n, d1, d2, d3, d4⟩ := v
    rw [parse_ok_of_pyMatch hp] at h
    obtain ⟨k, r, hk1, hkm, hn, hdrop, hmt⟩ := tryName_sound _ hp
    have hsne : s.toList ≠ [] := by
      intro hnil
      rw [hnil] at hdrop
      simp at hdrop
    refine ⟨n, d1, d2, d3, d4, rfl, ?_, ?_, ?_⟩
    · injection h with h
      exact h.symm
    · rw [hn]
      simp only [ne_eq, List.take_eq_nil_iff, not_or]
      exact ⟨by omega, hsne⟩
    · rw [hn]
      exact take_all_word hkm

theorem parse_reconstruct {n : List Char} (w l p f : Nat) (hne : n ≠ [])
    (hw : n.all isWordChar) :
    parse_item_name (String.mk (n ++ '_' :: (natDigits w ++ 'x' :: (natDigits l ++ 'x' ::
      (natDigits p ++ '_' :: natDigits f))))) = .ok ⟨String.mk n, w, l, p, f⟩ := by
  obtain ⟨vw, nw, aw⟩ := natDigits_spec w
  obtain ⟨vl, nl, al⟩ := natDigits_spec l
  obtain ⟨vp, np, ap⟩ := natDigits_spec p
  obtain ⟨vf, nf, af⟩ := natDigits_spec f
  have hdg : DigitGroups (natDigits w) (natDigits l) (natDigits p) (natDigits f) :=
    ⟨nw, aw, nl, al, np, ap, nf, af⟩
  set T : List Char :=
    natDigits w ++ 'x' :: (natDigits l ++ 'x' :: (natDigits p ++ '_' :: natDigits f)) with hT
  set s : List Char := n ++ '_' :: T with hs
  have hv : validAt s n.length = true := by
    have hva := validAt_of_shape (n := n) [] hdg
    rw [List.append_nil] at hva
    exact hva
  have hinv : ∀ j, n.length < j → validAt s j = false := by
    intro j hj
    by_contra hfalse
    rw [Bool.not_eq_false] at hfalse
    obtain ⟨r, hdrop, hsome⟩ := validAt_true_iff.mp hfalse
    obtain ⟨j', rfl⟩ : ∃ j', j = n.length + 1 + j' := ⟨j - n.length - 1, by omega⟩
    have hdrop' : T.drop j' = '_' :: r := by
      rw [hs, show n.length + 1 + j' = n.length + (1 + j') from by omega,
        List.drop_append, show (1 + j') = j' + 1 from by omega] at hdrop
      simpa using hdrop
    rw [hT] at hdrop'
    rcases drop_digit_sep aw (by decide) j' r hdrop' with ⟨_, hcx, _⟩ | ⟨j1, _, hdrop1⟩
    · exact absurd hcx (by decide)
    rcases drop_digit_sep al (by decide) j1 r hdrop1 with ⟨_, hcx, _⟩ | ⟨j2, _, hdrop2⟩
    · exact absurd hcx (by decide)
    rcases drop_digit_sep ap (by decide) j2 r hdrop2 with ⟨_, _, hrdf⟩ | ⟨j3, _, hdrop3⟩
    · rw [hrdf, matchTail_digits_none nf af] at hsome
      exact absurd hsome (by simp)
    · exact absurd hdrop3 (drop_digits_no_underscore af j3 r)
  have hkle : n.length ≤ wordRunLen s := by
    rw [hs]
    exact word_run_le _ hw
  obtain ⟨r, e1, e2, e3, e4, hdrop, hmt, htry⟩ :=
    tryName_eq_of_valid (wordRunLen s) n.length (List.length_pos.mpr hne) hkle hv
      (fun j hj _ => hinv j hj)
  have hdropn : s.drop n.length = '_' :: T := by
    rw [hs]
    exact List.drop_left n _
  rw [hdropn] at hdrop
  obtain ⟨_, hrT⟩ := List.cons.injEq .. ▸ hdrop
  have hmtT : matchTail T = some (natDigits w, natDigits l, natDigits p, natDigits f) := by
    have hc := matchTail_complete [] hdg
    rw [List.append_nil] at hc
    simpa [hT] using hc
  rw [← hrT, hmtT] at hmt
  simp only [Option.some.injEq, Prod.mk.injEq] at hmt
  obtain ⟨q1, q2, q3, q4⟩ := hmt
  have hpm : pyMatch (String.mk s).toList = some (s.take n.length, e1, e2, e3, e4) := htry
  rw [parse_ok_of_pyMatch hpm]
  rw [← q1, ← q2, ← q3, ← q4, vw, vl, vp, vf]
  rw [show s.take n.length = n from by rw [hs]; exact List.take_left n _]

/-! ## Lemmas: grouping and the staged form of the cutoff assignment -/

theorem except_bind_ok {ε α β : Type} (a : α) (f : α → Except ε β) :
    (Except.ok a >>= f : Except ε β) = f a := rfl

theorem except_bind_err {α β : Type} (e : String) (f : α → Except String β) :
    (Except.error e >>= f : Except String β) = Except.error e := rfl

theorem spec_first_fit_aux_nil (cap : Int) (qty : Row → Int) (cur : List Row) (total : Int) :
    spec_first_fit_aux cap qty [] cur total = if cur.isEmpty then [] else [cur] := rfl

theorem spec_first_fit_aux_cons (cap : Int) (qty : Row → Int) (r : Row) (rest cur : List Row)
    (total : Int) :
    spec_first_fit_aux cap qty (r :: rest) cur total =
      if total + qty r > cap then
        (if cur.isEmpty then [] else [cur]) ++ spec_first_fit_aux cap qty rest [r] (qty r)
      else spec_first_fit_aux cap qty rest (cur ++ [r]) (total + qty r) := rfl

theorem emitAll_cons (t : Int) (sub : List Row) (rest : List (Int × List Row)) (c : Nat) :
    emitAll ((t, sub) :: rest) c = markSubgroup t c sub ++ emitAll rest (c + 1) := rfl

theorem chunkBy_join {α κ : Type} [DecidableEq κ] (key : α → κ) :
    ∀ l : List α, ((chunkBy key l).map Prod.snd).flatten = l := by
  intro l
  induction l with
  | nil => rfl
  | cons a t ih =>
    cases hc : chunkBy key t with
    | nil =>
      rw [hc] at ih
      simp only [List.map_nil, List.flatten_nil] at ih
      simp [chunkBy, hc, ← ih]
    | cons kg more =>
      obtain ⟨k, g⟩ := kg
      rw [hc] at ih
      by_cases hk : key a = k
      · simp only [chunkBy, hc, if_pos hk]
        simp only [List.map_cons, List.flatten_cons] at ih ⊢
        rw [← ih]
        simp
      · simp only [chunkBy, hc, if_neg hk]
        simp only [List.map_cons, List.flatten_cons] at ih ⊢
        rw [← ih]
        simp

theorem chunkBy_snd_nonempty {α κ : Type} [DecidableEq κ] (key : α → κ) :
    ∀ l kg, kg ∈ chunkBy key l → kg.2 ≠ [] := by
  intro l
  induction l with
  | nil => intro kg h; simp [chunkBy] at h
  | cons a t ih =>
    intro kg h
    cases hc : chunkBy key t with
    | nil =>
      rw [chunkBy, hc] at h
      simp at h
      rw [h]
      simp
    | cons kg' more =>
      obtain ⟨k, g⟩ := kg'
      rw [chunkBy, hc] at h
      dsimp only at h
      by_cases hk : key a = k
      · rw [if_pos hk] at h
        rcases List.mem_cons.mp h with he | hm
        · rw [he]; simp
        · exact ih kg (by rw [hc]; exact List.mem_cons_of_mem _ hm)
      · rw [if_neg hk] at h
        rcases List.mem_cons.mp h with he | hm
        · rw [he]; simp
        · exact ih kg (by rw [hc]; exact hm)

theorem chunkBy_key_eq {α κ : Type} [DecidableEq κ] (key : α → κ) :
    ∀ l kg, kg ∈ chunkBy key l → ∀ a ∈ kg.2, key a = kg.1 := by
  intro l
  induction l with
  | nil => intro kg h; simp [chunkBy] at h
  | cons a t ih =>
    intro kg h b hb
    cases hc : chunkBy key t with
    | nil =>
      rw [chunkBy, hc] at h
      simp at h
      subst h
      simp only at hb
      simp at hb
      rw [hb]
    | cons kg' more =>
      obtain ⟨k, g⟩ := kg'
      rw [chunkBy, hc] at h
      dsimp only at h
      by_cases hk : key a = k
      · rw [if_pos hk] at h
        rcases List.mem_cons.mp h with he | hm
        · subst he
          simp only at hb ⊢
          rcases List.mem_cons.mp hb with hba | hbg
          · rw [hba, hk]
          · exact ih (k, g) (by rw [hc]; exact List.mem_cons_self _ _) b hbg
        · exact ih kg (by rw [hc]; exact List.mem_cons_of_mem _ hm) b hb
      · rw [if_neg hk] at h
        rcases List.mem_cons.mp h with he | hm
        · subst he
          simp only at hb ⊢
          rcases List.mem_cons.mp hb with hba | hbg
          · rw [hba]
          · simp at hbg
        · exact ih kg (by rw [hc]; exact hm) b hb

theorem chunkBy_mem_of_mem {α κ : Type} [DecidableEq κ] (key : α → κ)
    {l : List α} {kg : κ × List α} (h : kg ∈ chunkBy key l) :
    ∀ a ∈ kg.2, a ∈ l := by
  intro a ha
  have hj := chunkBy_join key l
  rw [← hj]
  exact List.mem_flatten.mpr ⟨kg.2, List.mem_map_of_mem Prod.snd h, ha⟩

theorem sortLe_imp_keyLe {a b : Row} (h : SortLe a b) : KeyLe a b := by
  rcases h with h | ⟨e, h | ⟨e2, _⟩⟩
  · exact Or.inl h
  · exact Or.inr ⟨e, le_of_lt h⟩
  · exact Or.inr ⟨e, le_of_eq e2⟩

theorem pandas_groupby_of_sorted {l : List Row} (h : List.Sorted SortLe l) :
    pandas_groupby l = chunkBy rowKey l := by
  unfold pandas_groupby
  rw [List.Sorted.insertionSort_eq (h.imp (fun hab => sortLe_imp_keyLe hab))]

theorem packStep_eq {cap : Int} {r : Row} {q : Int} (hq : r.quantity = some q)
    (subs : List (List Row)) (cur : List Row) (total : Int) :
    packStep cap (subs, cur, total) r =
      .ok (if total + q > cap then
            ((if cur.isEmpty then subs else subs ++ [cur]), [r], q)
          else (subs, cur ++ [r], total + q)) := by
  unfold packStep toIntQ
  rw [hq, except_bind_ok]
  dsimp only
  by_cases hgt : total + q > cap
  · rw [if_pos hgt, if_pos hgt]
    rfl
  · rw [if_neg hgt, if_neg hgt]
    rfl

theorem packGroup_eq_spec (cap : Int) :
    ∀ (rows : List Row) (subs : List (List Row)) (cur : List Row) (total : Int),
      (∀ r ∈ rows, r.quantity.isSome) →
      (rows.foldlM (packStep cap) (subs, cur, total)).map
          (fun st => if st.2.1.isEmpty then st.1 else st.1 ++ [st.2.1]) =
        .ok (subs ++ spec_first_fit_aux cap qval rows cur total) := by
  intro rows
  induction rows with
  | nil =>
    intro subs cur total _
    rw [spec_first_fit_aux_nil]
    cases cur with
    | nil => simp [List.foldlM_nil, Except.map, pure, Except.pure]
    | cons c0 ct => simp [List.foldlM_nil, Except.map, pure, Except.pure]
  | cons r rest ih =>
    intro subs cur total hq
    have hqr : r.quantity.isSome := hq r (by simp)
    obtain ⟨q, hq'⟩ := Option.isSome_iff_exists.mp hqr
    have hqv : qval r = q := by unfold qval; rw [hq']; rfl
    rw [List.foldlM_cons, packStep_eq hq', except_bind_ok, spec_first_fit_aux_cons, hqv]
    by_cases hgt : total + q > cap
    · rw [if_pos hgt, if_pos hgt, ih _ _ _ (fun x hx => hq x (List.mem_cons_of_mem _ hx))]
      cases cur with
      | nil => simp
      | cons c0 ct => simp [List.append_assoc]
    · rw [if_neg hgt, if_neg hgt, ih _ _ _ (fun x hx => hq x (List.mem_cons_of_mem _ hx))]

theorem packGroup_eq {cap : Int} {rows : List Row} (hq : ∀ r ∈ rows, r.quantity.isSome) :
    packGroup cap rows = .ok (spec_first_fit cap qval rows) := by
  have h := packGroup_eq_spec cap rows [] [] 0 hq
  unfold packGroup spec_first_fit
  cases hfold : rows.foldlM (packStep cap) ([], [], 0) with
  | error e =>
    rw [hfold] at h
    exact absurd h (by simp [Except.map])
  | ok st =>
    rw [hfold] at h
    simp only [Except.map, List.nil_append] at h
    rw [except_bind_ok]
    exact h

theorem emitAll_append (b1 b2 : List (Int × List Row)) :
    ∀ c, emitAll (b1 ++ b2) c = emitAll b1 c ++ emitAll b2 (c + b1.length) := by
  induction b1 with
  | nil => intro c; simp [emitAll]
  | cons tb rest ih =>
    intro c
    obtain ⟨t, sub⟩ := tb
    rw [List.cons_append, emitAll_cons, emitAll_cons, ih (c + 1), List.length_cons,
      show c + 1 + rest.length = c + (rest.length + 1) from by omega, List.append_assoc]

theorem emit_foldl (t : Int) : ∀ (subs : List (List Row)) (acc : List CutRow) (c : Nat),
    subs.foldl (fun a sub => (a.1 ++ markSubgroup t a.2 sub, a.2 + 1)) (acc, c) =
      (acc ++ emitAll (subs.map (fun sub => (t, sub))) c, c + subs.length) := by
  intro subs
  induction subs with
  | nil => intro acc c; simp [emitAll]
  | cons s rest ih =>
    intro acc c
    rw [List.foldl_cons, ih, List.map_cons, emitAll_cons, List.length_cons,
      show c + 1 + rest.length = c + (rest.length + 1) from by omega, List.append_assoc]

theorem groupStep_eq {cfg : Config} {kg : (Nat × Nat) × List Row}
    (hcap : (cfg.capacity kg.1.1).isSome) (hct : (cfg.ctype kg.1.1).isSome)
    (hq : ∀ r ∈ kg.2, r.quantity.isSome) (st : List CutRow × Nat) :
    groupStep cfg st kg = .ok (st.1 ++ emitAll (binsOfGroups cfg [kg]) st.2,
      st.2 + (binsOfGroups cfg [kg]).length) := by
  obtain ⟨cap, hcap'⟩ := Option.isSome_iff_exists.mp hcap
  obtain ⟨ct, hct'⟩ := Option.isSome_iff_exists.mp hct
  unfold groupStep keyLookup
  rw [hcap', hct']
  rw [except_bind_ok, except_bind_ok, packGroup_eq hq, except_bind_ok]
  unfold binsOfGroups
  simp only [List.flatMap_cons, List.flatMap_nil, List.append_nil, hcap', hct',
    Option.getD_some]
  rw [emit_foldl]
  simp only [List.length_map]
  rfl

theorem foldlM_groupStep {cfg : Config} :
    ∀ (groups : List ((Nat × Nat) × List Row)),
      (∀ kg ∈ groups, (cfg.capacity kg.1.1).isSome ∧ (cfg.ctype kg.1.1).isSome ∧
        ∀ r ∈ kg.2, r.quantity.isSome) →
      ∀ st, groups.foldlM (groupStep cfg) st =
        .ok (st.1 ++ emitAll (binsOfGroups cfg groups) st.2,
          st.2 + (binsOfGroups cfg groups).length) := by
  intro groups
  induction groups with
  | nil =>
    intro _ st
    show pure st = _
    simp only [binsOfGroups, List.flatMap_nil, emitAll, List.append_nil, List.length_nil,
      Nat.add_zero]
    rfl
  | cons kg rest ih =>
    intro hcond st
    obtain ⟨hcap, hct, hq⟩ := hcond kg (by simp)
    rw [List.foldlM_cons, groupStep_eq hcap hct hq, except_bind_ok,
      ih (fun x hx => hcond x (List.mem_cons_of_mem _ hx))]
    have hsplit : binsOfGroups cfg (kg :: rest) =
        binsOfGroups cfg [kg] ++ binsOfGroups cfg rest := by
      unfold binsOfGroups
      simp
    rw [hsplit, emitAll_append, List.append_assoc, List.length_append, Nat.add_assoc]

theorem assign_cutoffs_staged {cfg : Config} {df : List Row} (hok : CfgOk cfg df) :
    assign_cutoffs cfg df = .ok (emitAll (binsOf cfg df) 1) := by
  unfold assign_cutoffs
  rw [pandas_groupby_of_sorted (List.sorted_insertionSort SortLe df)]
  have hcond : ∀ kg ∈ chunkBy rowKey (df.insertionSort SortLe),
      (cfg.capacity kg.1.1).isSome ∧ (cfg.ctype kg.1.1).isSome ∧
        ∀ r ∈ kg.2, r.quantity.isSome := by
    intro kg hkg
    have hne := chunkBy_snd_nonempty rowKey _ kg hkg
    obtain ⟨r0, hr0⟩ := List.exists_mem_of_ne_nil _ hne
    have hmem : ∀ a ∈ kg.2, a ∈ df := by
      intro a ha
      exact ((List.perm_insertionSort SortLe df).mem_iff).mp
        (chunkBy_mem_of_mem rowKey hkg a ha)
    have hkey : rowKey r0 = kg.1 := chunkBy_key_eq rowKey _ kg hkg r0 hr0
    have hft : kg.1.1 = r0.form_type := by rw [← hkey]; rfl
    obtain ⟨hc, ht, _⟩ := hok r0 (hmem r0 hr0)
    exact ⟨hft ▸ hc, hft ▸ ht, fun r hr => (hok r (hmem r hr)).2.2⟩
  rw [foldlM_groupStep _ hcond ([], 1), except_bind_ok]
  rfl

/-! ## Lemmas: bins, marking, emission -/

theorem ff_aux_nonempty (cap : Int) (qty : Row → Int) :
    ∀ rows cur total, ∀ b ∈ spec_first_fit_aux cap qty rows cur total, b ≠ [] := by
  intro rows
  induction rows with
  | nil =>
    intro cur total b hb
    rw [spec_first_fit_aux_nil] at hb
    by_cases hce : cur.isEmpty
    · simp [hce] at hb
    · simp only [hce, if_false, Bool.false_eq_true, List.mem_singleton] at hb
      rw [hb]
      intro hc
      rw [hc] at hce
      simp at hce
  | cons r rest ih =>
    intro cur total b hb
    rw [spec_first_fit_aux_cons] at hb
    by_cases hgt : total + qty r > cap
    · rw [if_pos hgt] at hb
      rcases List.mem_append.mp hb with hclose | hrec
      · by_cases hce : cur.isEmpty
        · simp [hce] at hclose
        · simp only [hce, if_false, Bool.false_eq_true, List.mem_singleton] at hclose
          rw [hclose]
          intro hc
          rw [hc] at hce
          simp at hce
      · exact ih [r] (qty r) b hrec
    · rw [if_neg hgt] at hb
      exact ih (cur ++ [r]) (total + qty r) b hb

theorem ff_aux_subset (cap : Int) (qty : Row → Int) :
    ∀ rows cur total, ∀ b ∈ spec_first_fit_aux cap qty rows cur total,
      ∀ x ∈ b, x ∈ cur ∨ x ∈ rows := by
  intro rows
  induction rows with
  | nil =>
    intro cur total b hb x hx
    rw [spec_first_fit_aux_nil] at hb
    by_cases hce : cur.isEmpty
    · simp [hce] at hb
    · simp only [hce, if_false, Bool.false_eq_true, List.mem_singleton] at hb
      exact Or.inl (hb ▸ hx)
  | cons r rest ih =>
    intro cur total b hb x hx
    rw [spec_first_fit_aux_cons] at hb
    by_cases hgt : total + qty r > cap
    · rw [if_pos hgt] at hb
      rcases List.mem_append.mp hb with hclose | hrec
      · by_cases hce : cur.isEmpty
        · simp [hce] at hclose
        · simp only [hce, if_false, Bool.false_eq_true, List.mem_singleton] at hclose
          exact Or.inl (hclose ▸ hx)
      · rcases ih [r] (qty r) b hrec x hx with hone | hr
        · simp at hone
          exact Or.inr (by rw [hone]; exact List.mem_cons_self _ _)
        · exact Or.inr (List.mem_cons_of_mem _ hr)
    · rw [if_neg hgt] at hb
      rcases ih (cur ++ [r]) (total + qty r) b hb x hx with hone | hr
      · rcases List.mem_append.mp hone with hcur | hrr
        · exact Or.inl hcur
        · simp at hrr
          exact Or.inr (by rw [hrr]; exact List.mem_cons_self _ _)
      · exact Or.inr (List.mem_cons_of_mem _ hr)

theorem ff_aux_join (cap : Int) (qty : Row → Int) :
    ∀ rows cur total, (spec_first_fit_aux cap qty rows cur total).flatten = cur ++ rows := by
  intro rows
  induction rows with
  | nil =>
    intro cur total
    rw [spec_first_fit_aux_nil]
    by_cases hce : cur.isEmpty
    · have : cur = [] := by
        cases cur with
        | nil => rfl
        | cons a t => simp at hce
      simp [hce, this]
    · simp [hce]
  | cons r rest ih =>
    intro cur total
    rw [spec_first_fit_aux_cons]
    by_cases hgt : total + qty r > cap
    · rw [if_pos hgt, List.flatten_append, ih [r] (qty r)]
      by_cases hce : cur.isEmpty
      · have hnil : cur = [] := by
          cases cur with
          | nil => rfl
          | cons a t => simp at hce
        simp [hce, hnil]
      · simp [hce]
    · rw [if_neg hgt, ih (cur ++ [r]) (total + qty r), List.append_assoc]
      rfl

theorem spec_first_fit_join (cap : Int) (qty : Row → Int) (rows : List Row) :
    (spec_first_fit cap qty rows).flatten = rows :=
  ff_aux_join cap qty rows [] 0

theorem ff_aux_cap (cap : Int) (qty : Row → Int) :
    ∀ rows cur total, total = (cur.map qty).sum →
      (cur = [] ∨ ((cur.map qty).sum ≤ cap ∨ ∃ r, cur = [r] ∧ cap < qty r)) →
      ∀ b ∈ spec_first_fit_aux cap qty rows cur total,
        (b.map qty).sum ≤ cap ∨ ∃ r, b = [r] ∧ cap < qty r := by
  intro rows
  induction rows with
  | nil =>
    intro cur total htot hP b hb
    rw [spec_first_fit_aux_nil] at hb
    by_cases hce : cur.isEmpty
    · simp [hce] at hb
    · simp only [hce, if_false, Bool.false_eq_true, List.mem_singleton] at hb
      subst hb
      rcases hP with hnil | hP
      · rw [hnil] at hce; simp at hce
      · exact hP
  | cons r rest ih =>
    intro cur total htot hP b hb
    rw [spec_first_fit_aux_cons] at hb
    by_cases hgt : total + qty r > cap
    · rw [if_pos hgt] at hb
      rcases List.mem_append.mp hb with hclose | hrec
      · by_cases hce : cur.isEmpty
        · simp [hce] at hclose
        · simp only [hce, if_false, Bool.false_eq_true, List.mem_singleton] at hclose
          subst hclose
          rcases hP with hnil | hP
          · rw [hnil] at hce; simp at hce
          · exact hP
      · refine ih [r] (qty r) (by simp) (Or.inr ?_) b hrec
        by_cases hle : qty r ≤ cap
        · exact Or.inl (by simp [hle])
        · exact Or.inr ⟨r, rfl, by omega⟩
    · rw [if_neg hgt] at hb
      refine ih (cur ++ [r]) (total + qty r) ?_ (Or.inr (Or.inl ?_)) b hb
      · rw [List.map_append, List.sum_append, ← htot]
        simp
      · rw [List.map_append, List.sum_append, ← htot]
        simp only [List.map_cons, List.map_nil, List.sum_cons, List.sum_nil, add_zero]
        omega

theorem spec_first_fit_cap (cap : Int) (qty : Row → Int) (rows : List Row) :
    ∀ b ∈ spec_first_fit cap qty rows,
      (b.map qty).sum ≤ cap ∨ ∃ r, b = [r] ∧ cap < qty r :=
  ff_aux_cap cap qty rows [] 0 (by simp) (Or.inl rfl)

theorem getElem_mapIdx {α β : Type} (f : ℕ → α → β) (l : List α) (i : ℕ)
    (h : i < (l.mapIdx f).length) :
    (l.mapIdx f)[i] = f i (l.get ⟨i, by rw [List.length_mapIdx] at h; exact h⟩) := by
  simp only [List.mapIdx_eq_enum_map]
  rw [List.getElem_map]
  simp only [List.getElem_enum]
  rfl

theorem markSubgroup_length (t : Int) (c : Nat) (sub : List Row) :
    (markSubgroup t c sub).length = sub.length := by
  unfold markSubgroup
  rw [List.length_mapIdx]

theorem markSubgroup_getElem (t : Int) (c : Nat) (sub : List Row) (i : ℕ)
    (h : i < (markSubgroup t c sub).length) :
    (markSubgroup t c sub)[i] =
      { itemName := (sub.get ⟨i, by rw [markSubgroup_length] at h; exact h⟩).itemName
        unit := (sub.get ⟨i, by rw [markSubgroup_length] at h; exact h⟩).unit
        quantity := (sub.get ⟨i, by rw [markSubgroup_length] at h; exact h⟩).quantity
        width_m := (sub.get ⟨i, by rw [markSubgroup_length] at h; exact h⟩).width_m
        length_m := (sub.get ⟨i, by rw [markSubgroup_length] at h; exact h⟩).length_m
        projection_m := (sub.get ⟨i, by rw [markSubgroup_length] at h; exact h⟩).projection_m
        form_type := (sub.get ⟨i, by rw [markSubgroup_length] at h; exact h⟩).form_type
        cutoff_id := c
        cutoff_type := if i = maxLenIdx sub then 0 else t } := by
  unfold markSubgroup at h ⊢
  rw [getElem_mapIdx]

theorem markSubgroup_map_core (t : Int) (c : Nat) (sub : List Row) :
    (markSubgroup t c sub).map coreOfCut = sub.map coreOfRow := by
  apply List.ext_getElem
  · rw [List.length_map, List.length_map, markSubgroup_length]
  · intro i h1 h2
    rw [List.getElem_map, List.getElem_map, markSubgroup_getElem]
    rfl

theorem markSubgroup_id (t : Int) (c : Nat) (sub : List Row) :
    ∀ x ∈ markSubgroup t c sub, x.cutoff_id = c := by
  intro x hx
  obtain ⟨i, hi, hxi⟩ := List.mem_iff_getElem.mp hx
  rw [markSubgroup_getElem] at hxi
  rw [← hxi]

theorem emitAll_id_bounds : ∀ (bins : List (Int × List Row)) (c : Nat),
    ∀ x ∈ emitAll bins c, c ≤ x.cutoff_id ∧ x.cutoff_id < c + bins.length := by
  intro bins
  induction bins with
  | nil => intro c x hx; simp [emitAll] at hx
  | cons tb rest ih =>
    intro c x hx
    obtain ⟨t, sub⟩ := tb
    rw [emitAll_cons] at hx
    rcases List.mem_append.mp hx with hm | hr
    · rw [markSubgroup_id t c sub x hm]
      simp
    · obtain ⟨h1, h2⟩ := ih (c + 1) x hr
      constructor
      · omega
      · rw [List.length_cons]
        omega

theorem emitAll_filter_eq : ∀ (bins : List (Int × List Row)) (c j : Nat)
    (hj : j < bins.length),
    (emitAll bins c).filter (fun x => x.cutoff_id = c + j) =
      markSubgroup (bins.get ⟨j, hj⟩).1 (c + j) (bins.get ⟨j, hj⟩).2 := by
  intro bins
  induction bins with
  | nil => intro c j hj; simp at hj
  | cons tb rest ih =>
    intro c j hj
    obtain ⟨t, sub⟩ := tb
    rw [emitAll_cons, List.filter_append]
    cases j with
    | zero =>
      have h1 : (markSubgroup t c sub).filter (fun x => x.cutoff_id = c + 0) =
          markSubgroup t c sub := by
        rw [List.filter_eq_self]
        intro x hx
        simp [markSubgroup_id t c sub x hx]
      have h2 : (emitAll rest (c + 1)).filter (fun x => x.cutoff_id = c + 0) = [] := by
        rw [List.filter_eq_nil_iff]
        intro x hx
        obtain ⟨hb1, _⟩ := emitAll_id_bounds rest (c + 1) x hx
        simp only [decide_eq_true_eq]
        omega
      rw [h1, h2, List.append_nil]
      rfl
    | succ j' =>
      have h1 : (markSubgroup t c sub).filter (fun x => x.cutoff_id = c + (j' + 1)) = [] := by
        rw [List.filter_eq_nil_iff]
        intro x hx
        rw [markSubgroup_id t c sub x hx]
        simp only [decide_eq_true_eq]
        omega
      have harith : c + (j' + 1) = (c + 1) + j' := by omega
      have h2 := ih (c + 1) j' (by simp at hj; omega)
      rw [h1, List.nil_append, harith, h2]
      rfl

theorem emitAll_filter_out : ∀ (bins : List (Int × List Row)) (c i : Nat),
    (i < c ∨ c + bins.length ≤ i) →
    (emitAll bins c).filter (fun x => x.cutoff_id = i) = [] := by
  intro bins c i hi
  rw [List.filter_eq_nil_iff]
  intro x hx
  obtain ⟨h1, h2⟩ := emitAll_id_bounds bins c x hx
  simp only [decide_eq_true_eq]
  omega

theorem pairwise_le_of_const {l : List Nat} {c : Nat} (h : ∀ x ∈ l, x = c) :
    List.Pairwise (· ≤ ·) l := by
  induction l with
  | nil => exact List.Pairwise.nil
  | cons a t ih =>
    refine List.Pairwise.cons ?_ (ih (fun x hx => h x (List.mem_cons_of_mem _ hx)))
    intro b hb
    rw [h a (List.mem_cons_self _ _), h b (List.mem_cons_of_mem _ hb)]

theorem emitAll_ids_pairwise : ∀ (bins : List (Int × List Row)) (c : Nat),
    List.Pairwise (· ≤ ·) ((emitAll bins c).map (fun x => x.cutoff_id)) := by
  intro bins
  induction bins with
  | nil => intro c; simp [emitAll]
  | cons tb rest ih =>
    intro c
    obtain ⟨t, sub⟩ := tb
    rw [emitAll_cons, List.map_append, List.pairwise_append]
    refine ⟨?_, ?_, ?_⟩
    · refine pairwise_le_of_const (c := c) ?_
      intro x hx
      obtain ⟨y, hy, hxy⟩ := List.mem_map.mp hx
      rw [← hxy, markSubgroup_id t c sub y hy]
    · exact ih (c + 1)
    · intro a ha b hb
      obtain ⟨x, hx, hxa⟩ := List.mem_map.mp ha
      obtain ⟨y, hy, hyb⟩ := List.mem_map.mp hb
      rw [← hxa, ← hyb, markSubgroup_id t c sub x hx]
      obtain ⟨hb1, _⟩ := emitAll_id_bounds rest (c + 1) y hy
      omega

theorem emitAll_id_exists : ∀ (bins : List (Int × List Row)) (c j : Nat),
    j < bins.length → (∀ b ∈ bins, b.2 ≠ []) →
    ∃ x ∈ emitAll bins c, x.cutoff_id = c + j := by
  intro bins
  induction bins with
  | nil => intro c j hj; simp at hj
  | cons tb rest ih =>
    intro c j hj hne
    obtain ⟨t, sub⟩ := tb
    cases j with
    | zero =>
      have hsne : sub ≠ [] := hne (t, sub) (by simp)
      have hlen : 0 < (markSubgroup t c sub).length := by
        rw [markSubgroup_length]
        exact List.length_pos.mpr hsne
      obtain ⟨x, hx⟩ := List.exists_mem_of_ne_nil _ (List.length_pos.mp hlen)
      refine ⟨x, ?_, ?_⟩
      · rw [emitAll_cons]
        exact List.mem_append_left _ hx
      · rw [markSubgroup_id t c sub x hx]
        omega
    | succ j' =>
      obtain ⟨x, hx, hxid⟩ := ih (c + 1) j' (by simp at hj; omega)
        (fun b hb => hne b (List.mem_cons_of_mem _ hb))
      refine ⟨x, ?_, ?_⟩
      · rw [emitAll_cons]
        exact List.mem_append_right _ hx
      · rw [hxid]
        omega

theorem emitAll_map_core : ∀ (bins : List (Int × List Row)) (c : Nat),
    (emitAll bins c).map coreOfCut = ((bins.map Prod.snd).flatten).map coreOfRow := by
  intro bins
  induction bins with
  | nil => intro c; simp [emitAll]
  | cons tb rest ih =>
    intro c
    obtain ⟨t, sub⟩ := tb
    rw [emitAll_cons, List.map_append, markSubgroup_map_core, ih (c + 1)]
    simp

/-! ## Lemmas: the first-index-of-maximal-length computation -/

theorem maxLenIdxAux_nil (bv : ℚ) (bi i : Nat) : maxLenIdxAux [] bv bi i = bi := rfl

theorem maxLenIdxAux_cons (s : Row) (t2 : List Row) (bv : ℚ) (bi i : Nat) :
    maxLenIdxAux (s :: t2) bv bi i =
      if bv < s.length_m then maxLenIdxAux t2 s.length_m i (i + 1)
      else maxLenIdxAux t2 bv bi (i + 1) := rfl

theorem maxLenIdxAux_spec :
    ∀ (t : List Row) (bv : ℚ) (bi i : Nat),
      (maxLenIdxAux t bv bi i = bi ∧ ∀ x ∈ t, x.length_m ≤ bv) ∨
      (∃ j, ∃ hj : j < t.length, maxLenIdxAux t bv bi i = i + j ∧
        bv < (t.get ⟨j, hj⟩).length_m ∧
        (∀ k, ∀ hk : k < t.length, (t.get ⟨k, hk⟩).length_m ≤ (t.get ⟨j, hj⟩).length_m) ∧
        (∀ k, ∀ hk : k < t.length, k < j →
          (t.get ⟨k, hk⟩).length_m < (t.get ⟨j, hj⟩).length_m)) := by
  intro t
  induction t with
  | nil =>
    intro bv bi i
    left
    exact ⟨rfl, by simp⟩
  | cons s t2 ih =>
    intro bv bi i
    by_cases hlt : bv < s.length_m
    · rcases ih s.length_m i (i + 1) with ⟨heq, hall⟩ | ⟨j2, hj2, heq, hgt, hmax, hfirst⟩
      · right
        refine ⟨0, by simp, ?_, ?_, ?_, ?_⟩
        · rw [maxLenIdxAux_cons, if_pos hlt, heq]
          omega
        · simpa using hlt
        · intro k hk
          cases k with
          | zero => exact le_refl _
          | succ k' =>
            have hk' : k' < t2.length := by simp at hk; omega
            have hg : ((s :: t2).get ⟨k' + 1, hk⟩) = t2.get ⟨k', hk'⟩ := rfl
            rw [hg]
            have hg0 : ((s :: t2).get ⟨0, by simp⟩) = s := rfl
            rw [hg0]
            exact hall _ (List.get_mem t2 k' hk')
        · intro k hk hk0
          omega
      · right
        have hj2' : j2 + 1 < (s :: t2).length := by simp; omega
        refine ⟨j2 + 1, hj2', ?_, ?_, ?_, ?_⟩
        · rw [maxLenIdxAux_cons, if_pos hlt, heq]
          omega
        · have hg : ((s :: t2).get ⟨j2 + 1, hj2'⟩) = t2.get ⟨j2, hj2⟩ := rfl
          rw [hg]
          exact hlt.trans hgt
        · intro k hk
          have hg : ((s :: t2).get ⟨j2 + 1, hj2'⟩) = t2.get ⟨j2, hj2⟩ := rfl
          rw [hg]
          cases k with
          | zero =>
            have hg0 : ((s :: t2).get ⟨0, hk⟩) = s := rfl
            rw [hg0]
            exact le_of_lt hgt
          | succ k' =>
            have hk' : k' < t2.length := by simp at hk; omega
            have hgk : ((s :: t2).get ⟨k' + 1, hk⟩) = t2.get ⟨k', hk'⟩ := rfl
            rw [hgk]
            exact hmax k' hk'
        · intro k hk hklt
          have hg : ((s :: t2).get ⟨j2 + 1, hj2'⟩) = t2.get ⟨j2, hj2⟩ := rfl
          rw [hg]
          cases k with
          | zero =>
            have hg0 : ((s :: t2).get ⟨0, hk⟩) = s := rfl
            rw [hg0]
            exact hgt
          | succ k' =>
            have hk' : k' < t2.length := by simp at hk; omega
            have hgk : ((s :: t2).get ⟨k' + 1, hk⟩) = t2.get ⟨k', hk'⟩ := rfl
            rw [hgk]
            exact hfirst k' hk' (by omega)
    · rcases ih bv bi (i + 1) with ⟨heq, hall⟩ | ⟨j2, hj2, heq, hgt, hmax, hfirst⟩
      · left
        refine ⟨?_, ?_⟩
        · rw [maxLenIdxAux_cons, if_neg hlt, heq]
        · intro x hx
          rcases List.mem_cons.mp hx with hx0 | hxt
          · rw [hx0]
            exact le_of_not_lt hlt
          · exact hall x hxt
      · right
        have hj2' : j2 + 1 < (s :: t2).length := by simp; omega
        refine ⟨j2 + 1, hj2', ?_, ?_, ?_, ?_⟩
        · rw [maxLenIdxAux_cons, if_neg hlt, heq]
          omega
        · have hg : ((s :: t2).get ⟨j2 + 1, hj2'⟩) = t2.get ⟨j2, hj2⟩ := rfl
          rw [hg]
          exact hgt
        · intro k hk
          have hg : ((s :: t2).get ⟨j2 + 1, hj2'⟩) = t2.get ⟨j2, hj2⟩ := rfl
          rw [hg]
          cases k with
          | zero =>
            have hg0 : ((s :: t2).get ⟨0, hk⟩) = s := rfl
            rw [hg0]
            exact le_trans (le_of_not_lt hlt) (le_of_lt hgt)
          | succ k' =>
            have hk' : k' < t2.length := by simp at hk; omega
            have hgk : ((s :: t2).get ⟨k' + 1, hk⟩) = t2.get ⟨k', hk'⟩ := rfl
            rw [hgk]
            exact hmax k' hk'
        · intro k hk hklt
          have hg : ((s :: t2).get ⟨j2 + 1, hj2'⟩) = t2.get ⟨j2, hj2⟩ := rfl
          rw [hg]
          cases k with
          | zero =>
            have hg0 : ((s :: t2).get ⟨0, hk⟩) = s := rfl
            rw [hg0]
            exact lt_of_le_of_lt (le_of_not_lt hlt) hgt
          | succ k' =>
            have hk' : k' < t2.length := by simp at hk; omega
            have hgk : ((s :: t2).get ⟨k' + 1, hk⟩) = t2.get ⟨k', hk'⟩ := rfl
            rw [hgk]
            exact hfirst k' hk' (by omega)

theorem maxLenIdx_spec {sub : List Row} (hne : sub ≠ []) :
    ∃ hm : maxLenIdx sub < sub.length,
      (∀ j, ∀ hj : j < sub.length,
        (sub.get ⟨j, hj⟩).length_m ≤ (sub.get ⟨maxLenIdx sub, hm⟩).length_m) ∧
      (∀ j, ∀ hj : j < sub.length, j < maxLenIdx sub →
        (sub.get ⟨j, hj⟩).length_m < (sub.get ⟨maxLenIdx sub, hm⟩).length_m) := by
  cases sub with
  | nil => exact absurd rfl hne
  | cons r t =>
    have hm0 : maxLenIdx (r :: t) = maxLenIdxAux t r.length_m 0 1 := rfl
    rcases maxLenIdxAux_spec t r.length_m 0 1 with ⟨heq, hall⟩ | ⟨j2, hj2, heq, hgt, hmax, hfirst⟩
    · have hmv : maxLenIdx (r :: t) = 0 := by rw [hm0, heq]
      rw [hmv]
      refine ⟨by simp, ?_, ?_⟩
      · intro j hj
        cases j with
        | zero => exact le_refl _
        | succ j' =>
          have hj' : j' < t.length := by simp at hj; omega
          have hgk : ((r :: t).get ⟨j' + 1, hj⟩) = t.get ⟨j', hj'⟩ := rfl
          rw [hgk]
          exact hall _ (List.get_mem t j' hj')
      · intro j hj hjlt
        omega
    · have hmv : maxLenIdx (r :: t) = j2 + 1 := by rw [hm0, heq]; omega
      have hj2' : j2 + 1 < (r :: t).length := by simp; omega
      rw [hmv]
      have hg : ((r :: t).get ⟨j2 + 1, hj2'⟩) = t.get ⟨j2, hj2⟩ := rfl
      refine ⟨hj2', ?_, ?_⟩
      · intro j hj
        rw [hg]
        cases j with
        | zero =>
          have hg0 : ((r :: t).get ⟨0, hj⟩) = r := rfl
          rw [hg0]
          exact le_of_lt hgt
        | succ j' =>
          have hj' : j' < t.length := by simp at hj; omega
          have hgk : ((r :: t).get ⟨j' + 1, hj⟩) = t.get ⟨j', hj'⟩ := rfl
          rw [hgk]
          exact hmax j' hj'
      · intro j hj hjlt
        rw [hg]
        cases j with
        | zero =>
          have hg0 : ((r :: t).get ⟨0, hj⟩) = r := rfl
          rw [hg0]
          exact hgt
        | succ j' =>
          have hj' : j' < t.length := by simp at hj; omega
          have hgk : ((r :: t).get ⟨j' + 1, hj⟩) = t.get ⟨j', hj'⟩ := rfl
          rw [hgk]
          exact hfirst j' hj' (by omega)

/-! ## Lemmas: bin contents, success conditions, permutation of records -/

theorem binsOfGroups_join (cfg : Config) :
    ∀ groups, ((binsOfGroups cfg groups).map Prod.snd).flatten =
      (groups.map Prod.snd).flatten := by
  intro groups
  induction groups with
  | nil => rfl
  | cons kg rest ih =>
    have hsplit : binsOfGroups cfg (kg :: rest) =
        binsOfGroups cfg [kg] ++ binsOfGroups cfg rest := by
      unfold binsOfGroups
      simp
    rw [hsplit, List.map_append, List.flatten_append, ih]
    simp only [List.map_cons, List.flatten_cons]
    congr 1
    unfold binsOfGroups
    simp only [List.flatMap_cons, List.flatMap_nil, List.append_nil, List.map_map]
    have hcomp : (Prod.snd ∘ fun sub => (((cfg.ctype kg.1.1).getD 0 : Int), sub)) =
        (id : List Row → List Row) := rfl
    rw [hcomp, List.map_id]
    exact spec_first_fit_join _ qval kg.2

theorem binsOf_join (cfg : Config) (df : List Row) :
    ((binsOf cfg df).map Prod.snd).flatten = df.insertionSort SortLe := by
  unfold binsOf spec_sorted_groups
  rw [binsOfGroups_join, chunkBy_join]

theorem binsOf_mem {cfg : Config} {df : List Row} {tb : Int × List Row}
    (htb : tb ∈ binsOf cfg df) :
    tb.2 ≠ [] ∧ ∃ ft w : Nat,
      (∀ r ∈ tb.2, r.form_type = ft ∧ r.width_mm = w ∧ r ∈ df) ∧
      tb.1 = (cfg.ctype ft).getD 0 ∧
      ((tb.2.map qval).sum ≤ (cfg.capacity ft).getD 0 ∨
        ∃ r, tb.2 = [r] ∧ (cfg.capacity ft).getD 0 < qval r) := by
  unfold binsOf binsOfGroups at htb
  obtain ⟨kg, hkg, htb2⟩ := List.mem_flatMap.mp htb
  obtain ⟨sub, hsub, htb3⟩ := List.mem_map.mp htb2
  subst htb3
  refine ⟨ff_aux_nonempty _ qval kg.2 [] 0 sub hsub, kg.1.1, kg.1.2, ?_, rfl, ?_⟩
  · intro r hr
    have hrkg : r ∈ kg.2 := by
      rcases ff_aux_subset _ qval kg.2 [] 0 sub hsub r hr with hcur | hrows
      · simp at hcur
      · exact hrows
    have hkey : rowKey r = kg.1 := chunkBy_key_eq rowKey _ kg hkg r hrkg
    have hdf : r ∈ df := ((List.perm_insertionSort SortLe df).mem_iff).mp
      (chunkBy_mem_of_mem rowKey hkg r hrkg)
    exact ⟨by rw [← hkey]; rfl, by rw [← hkey]; rfl, hdf⟩
  · exact spec_first_fit_cap _ qval kg.2 sub hsub

theorem markSubgroup_map_q (t : Int) (c : Nat) (sub : List Row) :
    (markSubgroup t c sub).map qcv = sub.map qval := by
  apply List.ext_getElem
  · rw [List.length_map, List.length_map, markSubgroup_length]
  · intro i h1 h2
    rw [List.getElem_map, List.getElem_map, markSubgroup_getElem]
    rfl

theorem markSubgroup_mem_inv {t : Int} {c : Nat} {sub : List Row} {x : CutRow}
    (hx : x ∈ markSubgroup t c sub) :
    ∃ r ∈ sub, x.quantity = r.quantity ∧ x.form_type = r.form_type ∧
      x.length_m = r.length_m := by
  obtain ⟨i, hi, hxi⟩ := List.mem_iff_getElem.mp hx
  rw [markSubgroup_getElem] at hxi
  have hi' : i < sub.length := by rw [markSubgroup_length] at hi; exact hi
  exact ⟨sub.get ⟨i, hi'⟩, List.get_mem _ _ _, by rw [← hxi], by rw [← hxi], by rw [← hxi]⟩

theorem emitAll_mem_inv : ∀ (bins : List (Int × List Row)) (c : Nat) (x : CutRow),
    x ∈ emitAll bins c → ∃ tb ∈ bins, ∃ cid, x ∈ markSubgroup tb.1 cid tb.2 := by
  intro bins
  induction bins with
  | nil => intro c x hx; simp [emitAll] at hx
  | cons tb rest ih =>
    intro c x hx
    obtain ⟨t, sub⟩ := tb
    rw [emitAll_cons] at hx
    rcases List.mem_append.mp hx with hm | hr
    · exact ⟨(t, sub), by simp, c, hm⟩
    · obtain ⟨tb2, htb2, cid, hmm⟩ := ih (c + 1) x hr
      exact ⟨tb2, List.mem_cons_of_mem _ htb2, cid, hmm⟩

theorem packStep_ok_inv {cap : Int} {st : List (List Row) × List Row × Int} {r : Row}
    {st2} (h : packStep cap st r = .ok st2) : r.quantity.isSome := by
  unfold packStep toIntQ at h
  cases hq : r.quantity with
  | none =>
    rw [hq] at h
    exact Except.noConfusion h
  | some q => rfl

theorem foldlM_packStep_ok_inv (cap : Int) :
    ∀ (rows : List Row) st res, rows.foldlM (packStep cap) st = .ok res →
      ∀ r ∈ rows, r.quantity.isSome := by
  intro rows
  induction rows with
  | nil => intro st res h r hr; simp at hr
  | cons r0 rest ih =>
    intro st res h r hr
    rw [List.foldlM_cons] at h
    cases hps : packStep cap st r0 with
    | error e =>
      rw [hps] at h
      exact Except.noConfusion h
    | ok st1 =>
      rw [hps, except_bind_ok] at h
      rcases List.mem_cons.mp hr with h0 | hrest
      · rw [h0]; exact packStep_ok_inv hps
      · exact ih st1 res h r hrest

theorem packGroup_ok_inv {cap : Int} {rows : List Row} {subs}
    (h : packGroup cap rows = .ok subs) : ∀ r ∈ rows, r.quantity.isSome := by
  unfold packGroup at h
  cases hf : rows.foldlM (packStep cap) ([], [], 0) with
  | error e => rw [hf] at h; exact Except.noConfusion h
  | ok st => exact foldlM_packStep_ok_inv cap rows _ _ hf

theorem groupStep_ok_inv {cfg : Config} {st : List CutRow × Nat}
    {kg : (Nat × Nat) × List Row} {st2} (h : groupStep cfg st kg = .ok st2) :
    (cfg.capacity kg.1.1).isSome ∧ (cfg.ctype kg.1.1).isSome ∧
      ∀ r ∈ kg.2, r.quantity.isSome := by
  unfold groupStep keyLookup at h
  cases hc : cfg.capacity kg.1.1 with
  | none => rw [hc] at h; exact Except.noConfusion h
  | some cap =>
    rw [hc] at h
    dsimp only at h
    rw [except_bind_ok] at h
    cases ht : cfg.ctype kg.1.1 with
    | none => rw [ht] at h; exact Except.noConfusion h
    | some ct =>
      rw [ht] at h
      dsimp only at h
      rw [except_bind_ok] at h
      cases hpg : packGroup cap kg.2 with
      | error e => rw [hpg] at h; exact Except.noConfusion h
      | ok subs =>
        exact ⟨rfl, rfl, packGroup_ok_inv hpg⟩

theorem foldlM_groupStep_ok_inv (cfg : Config) :
    ∀ (groups : List ((Nat × Nat) × List Row)) st res,
      groups.foldlM (groupStep cfg) st = .ok res →
      ∀ kg ∈ groups, (cfg.capacity kg.1.1).isSome ∧ (cfg.ctype kg.1.1).isSome ∧
        ∀ r ∈ kg.2, r.quantity.isSome := by
  intro groups
  induction groups with
  | nil => intro st res h kg hkg; simp at hkg
  | cons kg0 rest ih =>
    intro st res h kg hkg
    rw [List.foldlM_cons] at h
    cases hgs : groupStep cfg st kg0 with
    | error e =>
      rw [hgs] at h
      exact Except.noConfusion h
    | ok st1 =>
      rw [hgs, except_bind_ok] at h
      rcases List.mem_cons.mp hkg with h0 | hrest
      · rw [h0]; exact groupStep_ok_inv hgs
      · exact ih st1 res h kg hrest

theorem assign_ok_cfgOk {cfg : Config} {df : List Row} {out}
    (h : assign_cutoffs cfg df = .ok out) : CfgOk cfg df := by
  unfold assign_cutoffs at h
  intro r hr
  have hrs : r ∈ df.insertionSort SortLe :=
    ((List.perm_insertionSort SortLe df).mem_iff).mpr hr
  have hflat : r ∈ ((chunkBy rowKey (df.insertionSort SortLe)).map Prod.snd).flatten := by
    rw [chunkBy_join]
    exact hrs
  obtain ⟨gl, hgl, hrg⟩ := List.mem_flatten.mp hflat
  obtain ⟨kg, hkg, hglk⟩ := List.mem_map.mp hgl
  cases hf : (pandas_groupby (df.insertionSort SortLe)).foldlM (groupStep cfg) ([], 1) with
  | error e => rw [hf] at h; exact Except.noConfusion h
  | ok st =>
    rw [pandas_groupby_of_sorted (List.sorted_insertionSort SortLe df)] at hf
    obtain ⟨hcap, hct, hq⟩ := foldlM_groupStep_ok_inv cfg _ _ _ hf kg hkg
    have hrkg : r ∈ kg.2 := by rw [hglk]; exact hrg
    have hkey : rowKey r = kg.1 := chunkBy_key_eq rowKey _ kg hkg r hrkg
    have hft : r.form_type = kg.1.1 := by rw [← hkey]; rfl
    exact ⟨by rw [hft]; exact hcap, by rw [hft]; exact hct, hq r hrkg⟩

theorem assign_ok_out_quantity {cfg : Config} {df : List Row} {out}
    (h : assign_cutoffs cfg df = .ok out) : ∀ x ∈ out, x.quantity.isSome := by
  have hok := assign_ok_cfgOk h
  rw [assign_cutoffs_staged hok] at h
  injection h with h
  subst h
  intro x hx
  obtain ⟨tb, htb, cid, hmm⟩ := emitAll_mem_inv (binsOf cfg df) 1 x hx
  obtain ⟨r, hr, hqx, _, _⟩ := markSubgroup_mem_inv hmm
  obtain ⟨_, ft, w, hall, _, _⟩ := binsOf_mem htb
  rw [hqx]
  exact (hok r (hall r hr).2.2).2.2

theorem assign_core_perm {cfg : Config} {df : List Row} {out} (hok : CfgOk cfg df)
    (h : assign_cutoffs cfg df = .ok out) :
    (out.map coreOfCut).Perm (df.map coreOfRow) := by
  rw [assign_cutoffs_staged hok] at h
  injection h with h
  subst h
  rw [emitAll_map_core, binsOf_join]
  exact (List.perm_insertionSort SortLe df).map coreOfRow

theorem calculate_derived_columns_nil :
    calculate_derived_columns [] = .error "KeyError: 'Ширина, м'" := rfl

theorem calculate_derived_columns_of_ne_nil {df : List CutRow} (h : df ≠ []) :
    calculate_derived_columns df = .ok (df.map derivedRow) := by
  have he : df.isEmpty = false := by
    cases df with
    | nil => exact absurd rfl h
    | cons a l => rfl
  unfold calculate_derived_columns
  rw [he]
  rfl

theorem binsOf_nil (cfg : Config) : binsOf cfg [] = [] := rfl

theorem emitAll_ne_nil {cfg : Config} {df : List Row} (hdf : df ≠ []) :
    emitAll (binsOf cfg df) 1 ≠ [] := by
  have hflat : ((binsOf cfg df).map Prod.snd).flatten = df.insertionSort SortLe :=
    binsOf_join cfg df
  have hsne : df.insertionSort SortLe ≠ [] := by
    intro he
    exact hdf ((he ▸ List.perm_insertionSort SortLe df).symm.eq_nil)
  intro hemit
  cases hbins : binsOf cfg df with
  | nil =>
    rw [hbins] at hflat
    exact absurd hflat.symm hsne
  | cons tb rest =>
    have htb : tb ∈ binsOf cfg df := by
      rw [hbins]
      exact List.mem_cons_self _ _
    have hne := (binsOf_mem htb).1
    rw [hbins] at hemit
    obtain ⟨t, sub⟩ := tb
    rw [emitAll_cons] at hemit
    have hmark := (List.append_eq_nil.mp hemit).1
    have hlen := markSubgroup_length t 1 sub
    rw [hmark] at hlen
    exact hne (List.length_eq_zero.mp hlen.symm)

theorem process_table_isOk_iff (cfg : Config) (df : List Row) :
    (process_table cfg df).isOk = true ↔ (CfgOk cfg df ∧ df ≠ []) := by
  constructor
  · intro h
    unfold process_table at h
    cases ha : assign_cutoffs cfg df with
    | error e =>
      rw [ha, except_bind_err] at h
      exact Bool.noConfusion (show false = true from h)
    | ok cut =>
      rw [ha, except_bind_ok] at h
      have hok := assign_ok_cfgOk ha
      refine ⟨hok, ?_⟩
      intro hdf
      subst hdf
      have hstaged : assign_cutoffs cfg [] = .ok (emitAll (binsOf cfg []) 1) :=
        assign_cutoffs_staged (fun r hr => absurd hr (List.not_mem_nil r))
      have hcut : cut = [] := Except.ok.inj (ha.symm.trans hstaged)
      rw [hcut, calculate_derived_columns_nil, except_bind_err] at h
      exact Bool.noConfusion (show false = true from h)
  · rintro ⟨hok, hdf⟩
    unfold process_table
    rw [assign_cutoffs_staged hok, except_bind_ok,
      calculate_derived_columns_of_ne_nil (emitAll_ne_nil hdf), except_bind_ok]
    rfl

theorem filter_length_one_of_unique {β : Type} (p : β → Bool) :
    ∀ (l : List β) (j : Nat) (hj : j < l.length),
      p (l.get ⟨j, hj⟩) = true →
      (∀ k, ∀ hk : k < l.length, k ≠ j → p (l.get ⟨k, hk⟩) = false) →
      (l.filter p).length = 1 := by
  intro l
  induction l with
  | nil => intro j hj; simp at hj
  | cons a t ih =>
    intro j hj hp hother
    cases j with
    | zero =>
      have hpa : p a = true := hp
      have hft : t.filter p = [] := by
        rw [List.filter_eq_nil_iff]
        intro x hxm
        obtain ⟨k, hk, hkx⟩ := List.mem_iff_getElem.mp hxm
        have hko : p (t.get ⟨k, hk⟩) = false := hother (k + 1) (by simp; omega) (by omega)
        rw [List.get_eq_getElem] at hko
        intro hc
        rw [← hkx] at hc
        rw [hc] at hko
        exact Bool.noConfusion hko
      rw [List.filter_cons_of_pos hpa, hft]
      rfl
    | succ j' =>
      have hpa : p a = false := by
        have := hother 0 (by simp) (by omega)
        exact this
      have hj' : j' < t.length := by simp at hj; omega
      rw [List.filter_cons_of_neg (by simp [hpa])]
      exact ih j' hj' hp (fun k hk hkj =>
        hother (k + 1) (by simp; omega) (by omega))


/-! ## Lemmas: token counting and ingestion -/

theorem dedupFirst_cons (a : String) (rest : List String) :
    dedupFirst (a :: rest) = a :: (dedupFirst rest).filter (fun s => s ≠ a) := rfl

theorem dedupFirst_mem (l : List String) (t : String) : t ∈ dedupFirst l ↔ t ∈ l := by
  induction l with
  | nil => simp [dedupFirst]
  | cons a rest ih =>
    rw [dedupFirst_cons]
    constructor
    · intro h
      rcases List.mem_cons.mp h with h0 | hf
      · rw [h0]; exact List.mem_cons_self _ _
      · exact List.mem_cons_of_mem _ (ih.mp (List.mem_of_mem_filter hf))
    · intro h
      rcases List.mem_cons.mp h with h0 | hr
      · rw [h0]; exact List.mem_cons_self _ _
      · by_cases hta : t = a
        · rw [hta]; exact List.mem_cons_self _ _
        · exact List.mem_cons_of_mem _
            (List.mem_filter.mpr ⟨ih.mpr hr, by simp [hta]⟩)

theorem dedupFirst_nodup : ∀ l : List String, (dedupFirst l).Nodup := by
  intro l
  induction l with
  | nil => exact List.nodup_nil
  | cons a rest ih =>
    rw [dedupFirst_cons]
    refine List.nodup_cons.mpr ⟨?_, ih.filter _⟩
    intro hmem
    have := (List.mem_filter.mp hmem).2
    simp at this

theorem dedupFirst_eq_nil_iff (l : List String) : dedupFirst l = [] ↔ l = [] := by
  cases l with
  | nil => simp [dedupFirst]
  | cons a rest => simp [dedupFirst_cons]

theorem dedupFirst_filter (p : String → Bool) :
    ∀ l, dedupFirst (l.filter p) = (dedupFirst l).filter p := by
  intro l
  induction l with
  | nil => rfl
  | cons a rest ih =>
    by_cases hpa : p a = true
    · rw [List.filter_cons_of_pos hpa, dedupFirst_cons, ih, dedupFirst_cons,
        List.filter_cons_of_pos hpa, List.filter_filter, List.filter_filter]
      congr 1
      apply List.filter_congr
      intro x _
      rw [Bool.and_comm]
    · have hpa' : p a = false := by revert hpa; cases p a <;> simp
      rw [List.filter_cons_of_neg (by simp [hpa']), ih, dedupFirst_cons,
        List.filter_cons_of_neg (by simp [hpa']), List.filter_filter]
      apply List.filter_congr
      intro x hx
      by_cases hxp : p x = true
      · have hxa : x ≠ a := by
          intro he
          rw [he, hpa'] at hxp
          exact Bool.noConfusion hxp
        simp [hxp, hxa]
      · have hxp' : p x = false := by revert hxp; cases p x <;> simp
        simp [hxp']

theorem bumpCount_cons_eq (k : String) (c : Nat) (rest : List (String × Nat)) (t : String)
    (h : k = t) : bumpCount ((k, c) :: rest) t = (k, c + 1) :: rest := by
  simp [bumpCount, h]

theorem bumpCount_cons_ne (k : String) (c : Nat) (rest : List (String × Nat)) (t : String)
    (h : ¬ k = t) : bumpCount ((k, c) :: rest) t = (k, c) :: bumpCount rest t := by
  simp [bumpCount, h]

theorem bumpCount_keys (t : String) :
    ∀ acc : List (String × Nat), (bumpCount acc t).map Prod.fst =
      if t ∈ acc.map Prod.fst then acc.map Prod.fst else acc.map Prod.fst ++ [t] := by
  intro acc
  induction acc with
  | nil => simp [bumpCount]
  | cons kc rest ih =>
    obtain ⟨k, c⟩ := kc
    by_cases hk : k = t
    · rw [bumpCount_cons_eq k c rest t hk]
      have hmem : t ∈ ((k, c) :: rest).map Prod.fst := by
        simp [hk.symm]
      rw [if_pos hmem]
      simp
    · rw [bumpCount_cons_ne k c rest t hk]
      simp only [List.map_cons]
      rw [ih]
      by_cases hmem : t ∈ rest.map Prod.fst
      · rw [if_pos hmem, if_pos (by simp [hmem])]
      · rw [if_neg hmem, if_neg (by simp [hmem]; exact fun h => hk h.symm)]
        rfl

theorem lookupCount_nil (t : String) : lookupCount [] t = 0 := rfl

theorem lookupCount_cons (k : String) (c : Nat) (rest : List (String × Nat)) (t : String) :
    lookupCount ((k, c) :: rest) t = if k = t then c else lookupCount rest t := rfl

theorem lookupCount_bumpCount (t u : String) :
    ∀ acc : List (String × Nat), lookupCount (bumpCount acc t) u =
      lookupCount acc u + (if u = t then 1 else 0) := by
  intro acc
  induction acc with
  | nil =>
    show lookupCount [(t, 1)] u = 0 + _
    rw [lookupCount_cons, lookupCount_nil]
    by_cases hu : u = t
    · rw [if_pos hu.symm, if_pos hu]
    · rw [if_neg (fun h => hu h.symm), if_neg hu]
  | cons kc rest ih =>
    obtain ⟨k, c⟩ := kc
    by_cases hk : k = t
    · rw [bumpCount_cons_eq k c rest t hk, lookupCount_cons, lookupCount_cons]
      by_cases hu : k = u
      · rw [if_pos hu, if_pos hu, if_pos (by rw [← hu, hk])]
      · rw [if_neg hu, if_neg hu, if_neg (by intro h; exact hu (by rw [hk, ← h]))]
        rfl
    · rw [bumpCount_cons_ne k c rest t hk, lookupCount_cons, lookupCount_cons]
      by_cases hu : k = u
      · rw [if_pos hu, if_pos hu, if_neg (by intro h; exact hk (by rw [hu, h]))]
        rfl
      · rw [if_neg hu, if_neg hu, ih]

theorem lookupCount_foldl :
    ∀ (items : List String) (acc : List (String × Nat)) (u : String),
      lookupCount (items.foldl bumpCount acc) u = lookupCount acc u + items.count u := by
  intro items
  induction items with
  | nil => intro acc u; simp
  | cons i rest ih =>
    intro acc u
    rw [List.foldl_cons, ih, lookupCount_bumpCount]
    by_cases h : u = i
    · rw [if_pos h, List.count_cons]
      have hb : (i == u) = true := by simp [h.symm]
      rw [if_pos hb]
      omega
    · rw [if_neg h, List.count_cons]
      have hb : (i == u) = false := by simp; intro he; exact h he.symm
      rw [hb]
      simp

theorem assoc_eq_keys_map :
    ∀ L : List (String × Nat), (L.map Prod.fst).Nodup →
      L = (L.map Prod.fst).map (fun t => (t, lookupCount L t)) := by
  intro L
  induction L with
  | nil => intro _; rfl
  | cons kc rest ih =>
    intro hnd
    obtain ⟨k, c⟩ := kc
    simp only [List.map_cons] at hnd ⊢
    obtain ⟨hk, hnd2⟩ := List.nodup_cons.mp hnd
    congr 1
    · rw [lookupCount_cons, if_pos rfl]
    · have hmc : (rest.map Prod.fst).map (fun t => (t, lookupCount ((k, c) :: rest) t)) =
          (rest.map Prod.fst).map (fun t => (t, lookupCount rest t)) := by
        apply List.map_congr_left
        intro t ht
        have htk : ¬ k = t := fun he => hk (he ▸ ht)
        rw [lookupCount_cons, if_neg htk]
      rw [hmc, ← ih hnd2]

theorem itemCounts_keys (items : List String) :
    (itemCounts items).map Prod.fst = dedupFirst items := by
  have key : ∀ (its : List String) (acc : List (String × Nat)),
      (its.foldl bumpCount acc).map Prod.fst =
        acc.map Prod.fst ++ dedupFirst (its.filter (fun t => t ∉ acc.map Prod.fst)) := by
    intro its
    induction its with
    | nil => intro acc; simp [dedupFirst]
    | cons i rest ih =>
      intro acc
      rw [List.foldl_cons, ih (bumpCount acc i), bumpCount_keys]
      by_cases hmem : i ∈ acc.map Prod.fst
      · rw [if_pos hmem, List.filter_cons_of_neg (by simp [hmem])]
      · rw [if_neg hmem, List.filter_cons_of_pos (by simp [hmem]), dedupFirst_cons,
          ← dedupFirst_filter, List.filter_filter]
        have hpred : rest.filter (fun t => t ∉ (acc.map Prod.fst ++ [i])) =
            rest.filter (fun t => decide (t ≠ i) && decide (t ∉ acc.map Prod.fst)) := by
          apply List.filter_congr
          intro x _
          by_cases h1 : x = i
          · simp [h1]
          · by_cases h2 : x ∈ acc.map Prod.fst <;> simp [h1, h2]
        rw [hpred, List.append_assoc]
        rfl
  have h := key items []
  rw [itemCounts, h]
  simp only [List.map_nil, List.nil_append]
  congr 1
  rw [List.filter_eq_self]
  intro a _
  simp

theorem itemCounts_lookup (items : List String) (u : String) :
    lookupCount (itemCounts items) u = items.count u := by
  have h := lookupCount_foldl items [] u
  rw [itemCounts]
  rw [h, lookupCount_nil]
  omega

theorem itemCounts_eq (items : List String) :
    itemCounts items = (dedupFirst items).map (fun t => (t, items.count t)) := by
  have h1 := assoc_eq_keys_map (itemCounts items)
    (by rw [itemCounts_keys]; exact dedupFirst_nodup items)
  rw [h1, itemCounts_keys]
  apply List.map_congr_left
  intro t _
  rw [itemCounts_lookup]

theorem mapM_nil_eq {α β : Type} (f : α → Except String β) :
    ([] : List α).mapM f = pure [] := List.mapM_nil ..

theorem mapM_cons_eq {α β : Type} (f : α → Except String β) (a : α) (l : List α) :
    (a :: l).mapM f = (f a >>= fun x => l.mapM f >>= fun xs => pure (x :: xs)) := by
  rw [List.mapM_cons]

theorem mapM_map {α β γ : Type} (g : α → β) (f : β → Except String γ) :
    ∀ l : List α, (l.map g).mapM f = l.mapM (fun a => f (g a)) := by
  intro l
  induction l with
  | nil => rfl
  | cons a rest ih =>
    rw [List.map_cons, mapM_cons_eq, mapM_cons_eq, ih]

theorem mapM_ok_iff {α β : Type} (f : α → Except String β) :
    ∀ l : List α, (l.mapM f).isOk = true ↔ ∀ a ∈ l, (f a).isOk = true := by
  intro l
  induction l with
  | nil =>
    rw [mapM_nil_eq]
    constructor
    · intro _ a ha
      exact absurd ha (List.not_mem_nil a)
    · intro _
      rfl
  | cons a rest ih =>
    rw [mapM_cons_eq]
    cases hfa : f a with
    | error e =>
      rw [except_bind_err]
      constructor
      · intro h
        exact Bool.noConfusion (show false = true from h)
      · intro h
        have hx := h a (List.mem_cons_self _ _)
        rw [hfa] at hx
        exact Bool.noConfusion (show false = true from hx)
    | ok b =>
      rw [except_bind_ok]
      cases hmr : rest.mapM f with
      | error e =>
        rw [except_bind_err]
        constructor
        · intro h
          exact Bool.noConfusion (show false = true from h)
        · intro h
          have hall := ih.mpr (fun x hx => h x (List.mem_cons_of_mem _ hx))
          rw [hmr] at hall
          exact Bool.noConfusion (show false = true from hall)
      | ok bs =>
        rw [except_bind_ok]
        constructor
        · intro _ x hx
          rcases List.mem_cons.mp hx with h0 | hr
          · rw [h0, hfa]
            rfl
          · exact ih.mp (by rw [hmr]; rfl) x hr
        · intro _
          rfl

theorem mapM_ok_mem {α β : Type} {f : α → Except String β} :
    ∀ {l : List α} {out : List β}, l.mapM f = .ok out →
      ∀ b ∈ out, ∃ a ∈ l, f a = .ok b := by
  intro l
  induction l with
  | nil =>
    intro out h b hb
    rw [mapM_nil_eq] at h
    injection h with h
    rw [← h] at hb
    exact absurd hb (List.not_mem_nil b)
  | cons a rest ih =>
    intro out h b hb
    rw [mapM_cons_eq] at h
    cases hfa : f a with
    | error e => rw [hfa, except_bind_err] at h; exact Except.noConfusion h
    | ok b0 =>
      rw [hfa, except_bind_ok] at h
      cases hmr : rest.mapM f with
      | error e => rw [hmr, except_bind_err] at h; exact Except.noConfusion h
      | ok bs =>
        rw [hmr, except_bind_ok] at h
        injection h with h
        rw [← h] at hb
        rcases List.mem_cons.mp hb with h0 | hr
        · exact ⟨a, List.mem_cons_self _ _, by rw [hfa, h0]⟩
        · obtain ⟨a2, ha2, hfa2⟩ := ih hmr b hr
          exact ⟨a2, List.mem_cons_of_mem _ ha2, hfa2⟩

theorem mapM_ok_mem_rev {α β : Type} {f : α → Except String β} :
    ∀ {l : List α} {out : List β}, l.mapM f = .ok out →
      ∀ a ∈ l, ∃ b ∈ out, f a = .ok b := by
  intro l
  induction l with
  | nil =>
    intro out h a ha
    exact absurd ha (List.not_mem_nil a)
  | cons a0 rest ih =>
    intro out h a ha
    rw [mapM_cons_eq] at h
    cases hfa : f a0 with
    | error e => rw [hfa, except_bind_err] at h; exact Except.noConfusion h
    | ok b0 =>
      rw [hfa, except_bind_ok] at h
      cases hmr : rest.mapM f with
      | error e => rw [hmr, except_bind_err] at h; exact Except.noConfusion h
      | ok bs =>
        rw [hmr, except_bind_ok] at h
        injection h with h
        rcases List.mem_cons.mp ha with h0 | hr
        · exact ⟨b0, by rw [← h]; exact List.mem_cons_self _ _, by rw [h0, hfa]⟩
        · obtain ⟨b2, hb2, hfb2⟩ := ih hmr a hr
          exact ⟨b2, by rw [← h]; exact List.mem_cons_of_mem _ hb2, hfb2⟩

theorem mapM_ok_length {α β : Type} {f : α → Except String β} :
    ∀ {l : List α} {out : List β}, l.mapM f = .ok out → out.length = l.length := by
  intro l
  induction l with
  | nil =>
    intro out h
    rw [mapM_nil_eq] at h
    injection h with h
    rw [← h]
    rfl
  | cons a rest ih =>
    intro out h
    rw [mapM_cons_eq] at h
    cases hfa : f a with
    | error e => rw [hfa, except_bind_err] at h; exact Except.noConfusion h
    | ok b0 =>
      rw [hfa, except_bind_ok] at h
      cases hmr : rest.mapM f with
      | error e => rw [hmr, except_bind_err] at h; exact Except.noConfusion h
      | ok bs =>
        rw [hmr, except_bind_ok] at h
        injection h with h
        rw [← h, List.length_cons, ih hmr]
        rfl

theorem recordOfItem_isOk (t : String) (c : Nat) :
    (recordOfItem t c).isOk = (parse_item_name t).isOk := by
  unfold recordOfItem
  cases hp : parse_item_name t with
  | error e => rfl
  | ok sp => rfl

theorem recordOfItem_ok_inv {t : String} {c : Nat} {r : Row}
    (h : recordOfItem t c = .ok r) :
    ∃ sp, parse_item_name t = .ok sp ∧ r.form_type = sp.form_type ∧
      r.quantity = some (c : Int) := by
  unfold recordOfItem at h
  cases hp : parse_item_name t with
  | error e => rw [hp] at h; exact Except.noConfusion h
  | ok sp =>
    rw [hp, except_bind_ok] at h
    injection h with h
    exact ⟨sp, rfl, by rw [← h], by rw [← h]⟩

theorem parse_txt_file_eq (content : String) :
    parse_txt_file content =
      (dedupFirst (tokensOf content)).mapM
        (fun t => recordOfItem t ((tokensOf content).count t)) := by
  unfold parse_txt_file
  rw [itemCounts_eq, mapM_map]

theorem parse_txt_file_nil {content : String} (h : tokensOf content = []) :
    parse_txt_file content = .ok [] := by
  rw [parse_txt_file_eq, h]
  rfl


theorem except_ok_getD {ε α : Type} (e : Except ε α) (d : α) (h : e.isOk = true) :
    e = .ok (e.toOption.getD d) := by
  cases e with
  | error er => exact Bool.noConfusion (show false = true from h)
  | ok a => rfl

theorem process_file_txt_isOk_iff (cfg : Config) (content : String) :
    (process_file_txt cfg content).isOk = true ↔
      (tokensOf content ≠ [] ∧
        ∀ t ∈ tokensOf content, ∃ sp, parse_item_name t = .ok sp ∧
          (cfg.capacity sp.form_type).isSome ∧ (cfg.ctype sp.form_type).isSome) := by
  constructor
  · intro h
    unfold process_file_txt at h
    cases hM : parse_txt_file content with
    | error e =>
      rw [hM, except_bind_err] at h
      exact Bool.noConfusion (show false = true from h)
    | ok rows =>
      rw [hM, except_bind_ok] at h
      by_cases hre : rows.isEmpty = true
      · rw [if_pos hre] at h
        exact Bool.noConfusion (show false = true from h)
      · rw [if_neg hre] at h
        have hcfg : CfgOk cfg rows := ((process_table_isOk_iff cfg rows).mp h).1
        have hM2 : (dedupFirst (tokensOf content)).mapM
            (fun t => recordOfItem t ((tokensOf content).count t)) = .ok rows := by
          rw [← parse_txt_file_eq]
          exact hM
        constructor
        · intro hT
          have hD : dedupFirst (tokensOf content) = [] := by
            rw [hT]
            rfl
          have hlen := mapM_ok_length hM2
          rw [hD] at hlen
          have hr0 : rows = [] := List.length_eq_zero.mp hlen
          rw [hr0] at hre
          exact hre rfl
        · intro t ht
          have htD : t ∈ dedupFirst (tokensOf content) := (dedupFirst_mem _ t).mpr ht
          obtain ⟨r, hr, hrec⟩ := mapM_ok_mem_rev hM2 t htD
          obtain ⟨sp, hsp, hft, _⟩ := recordOfItem_ok_inv hrec
          obtain ⟨hc, hct, _⟩ := hcfg r hr
          exact ⟨sp, hsp, by rw [← hft]; exact hc, by rw [← hft]; exact hct⟩
  · rintro ⟨hT, hall⟩
    have hok : ∀ t ∈ dedupFirst (tokensOf content),
        (recordOfItem t ((tokensOf content).count t)).isOk = true := by
      intro t ht
      obtain ⟨sp, hsp, _, _⟩ := hall t ((dedupFirst_mem _ t).mp ht)
      rw [recordOfItem_isOk, hsp]
      rfl
    have hMok := (mapM_ok_iff
      (fun t => recordOfItem t ((tokensOf content).count t)) _).mpr hok
    cases hM : (dedupFirst (tokensOf content)).mapM
        (fun t => recordOfItem t ((tokensOf content).count t)) with
    | error e =>
      rw [hM] at hMok
      exact Bool.noConfusion hMok
    | ok rows =>
      have hPM : parse_txt_file content = .ok rows := by
        rw [parse_txt_file_eq]
        exact hM
      have hlen : rows.length = (dedupFirst (tokensOf content)).length := mapM_ok_length hM
      have hrne : rows ≠ [] := by
        intro he
        rw [he] at hlen
        exact hT ((dedupFirst_eq_nil_iff _).mp (List.length_eq_zero.mp hlen.symm))
      have hcfg : CfgOk cfg rows := by
        intro r hr
        obtain ⟨t, ht, hrec⟩ := mapM_ok_mem hM r hr
        obtain ⟨sp, hsp, hft, hq⟩ := recordOfItem_ok_inv hrec
        obtain ⟨sp2, hsp2, hc, hct⟩ := hall t ((dedupFirst_mem _ t).mp ht)
        rw [hsp] at hsp2
        injection hsp2 with hsp2
        refine ⟨by rw [hft, hsp2]; exact hc, by rw [hft, hsp2]; exact hct, by rw [hq]; rfl⟩
      have hremp : rows.isEmpty = false := by
        cases rows with
        | nil => exact absurd rfl hrne
        | cons a l => rfl
      unfold process_file_txt
      rw [hPM, except_bind_ok, hremp, if_neg (by simp)]
      exact (process_table_isOk_iff cfg rows).mpr ⟨hcfg, hrne⟩


/-! ## The claims -/

/-- C1: for every ingested record table satisfying the configuration
precondition, the cutoff assignment implements exactly the specified
procedure: the records are sorted by (form type ascending, width ascending,
length descending) into a deterministic total order, the sorted sequence is
chunked into (form type, width) groups without re-sorting, each group is
partitioned by the spec-modelled sequential first-fit accumulation, and the
result is the emission of those bins in order. -/
theorem C1_cutoff_assignment_procedure (cfg : Config) (df : List Row)
    (hok : CfgOk cfg df) :
    List.Sorted SortLe (df.insertionSort SortLe) ∧
      (df.insertionSort SortLe).Perm df ∧
      assign_cutoffs cfg df =
        .ok (emitAll (binsOfGroups cfg (chunkBy rowKey (df.insertionSort SortLe))) 1) :=
  ⟨List.sorted_insertionSort SortLe df, List.perm_insertionSort SortLe df,
    by rw [assign_cutoffs_staged hok]; rfl⟩

/-- Witness for C1 on the concrete three-record table. -/
theorem C1_witness :
    List.Sorted SortLe (wDf.insertionSort SortLe) ∧
      (wDf.insertionSort SortLe).Perm wDf ∧
      assign_cutoffs defaultConfig wDf =
        .ok (emitAll (binsOfGroups defaultConfig
          (chunkBy rowKey (wDf.insertionSort SortLe))) 1) :=
  C1_cutoff_assignment_procedure defaultConfig wDf (by unfold CfgOk; decide)

/-- C2: in every successful output of the cutoff assignment, no record is
rejected or split (the carried fields are a permutation of the input), every
cutoff holds records of a single form type with a configured capacity, every
cutoff with two or more records keeps the sum of its quantities within that
capacity, and a cutoff exceeding its capacity is a single record whose own
quantity exceeds the capacity, still admitted alone. -/
theorem C2_capacity_invariant (cfg : Config) (df : List Row) (out : List CutRow)
    (h : assign_cutoffs cfg df = .ok out) :
    (out.map coreOfCut).Perm (df.map coreOfRow) ∧
    ∀ i : Nat, (∃ x ∈ out, x.cutoff_id = i) →
      ∃ ft cap, cfg.capacity ft = some cap ∧
        (∀ x ∈ out.filter (fun x => x.cutoff_id = i), x.form_type = ft) ∧
        (2 ≤ (out.filter (fun x => x.cutoff_id = i)).length →
          ((out.filter (fun x => x.cutoff_id = i)).map qcv).sum ≤ cap) ∧
        (cap < ((out.filter (fun x => x.cutoff_id = i)).map qcv).sum →
          ∃ x, out.filter (fun x => x.cutoff_id = i) = [x] ∧ cap < qcv x) := by
  have hok := assign_ok_cfgOk h
  refine ⟨assign_core_perm hok h, ?_⟩
  rw [assign_cutoffs_staged hok] at h
  injection h with h
  subst h
  intro i hex
  obtain ⟨x0, hx0, hid0⟩ := hex
  obtain ⟨hlb, hub⟩ := emitAll_id_bounds (binsOf cfg df) 1 x0 hx0
  obtain ⟨j, rfl⟩ : ∃ j, i = 1 + j := ⟨i - 1, by omega⟩
  have hj : j < (binsOf cfg df).length := by omega
  have hfe := emitAll_filter_eq (binsOf cfg df) 1 j hj
  have htb : (binsOf cfg df).get ⟨j, hj⟩ ∈ binsOf cfg df := List.get_mem _ _ _
  obtain ⟨hne, ft, w, hall, hct, hcap⟩ := binsOf_mem htb
  obtain ⟨r0, hr0⟩ := List.exists_mem_of_ne_nil _ hne
  have hcs : (cfg.capacity ft).isSome := by
    rw [← (hall r0 hr0).1]
    exact (hok r0 (hall r0 hr0).2.2).1
  obtain ⟨cap, hcap_eq⟩ := Option.isSome_iff_exists.mp hcs
  have hgd : (cfg.capacity ft).getD 0 = cap := by rw [hcap_eq]; rfl
  refine ⟨ft, cap, hcap_eq, ?_, ?_, ?_⟩
  · intro x hx
    rw [hfe] at hx
    obtain ⟨r, hr, _, hxf, _⟩ := markSubgroup_mem_inv hx
    rw [hxf]
    exact (hall r hr).1
  · intro h2
    rw [hfe, markSubgroup_length] at h2
    rw [hfe, markSubgroup_map_q]
    rcases hcap with hle | ⟨r, hr1, _⟩
    · rw [← hgd]
      exact hle
    · rw [hr1] at h2
      simp at h2
  · intro hgt
    rw [hfe, markSubgroup_map_q] at hgt
    rcases hcap with hle | ⟨r, hr1, hqr⟩
    · rw [← hgd] at hgt
      omega
    · have hlen1 : (markSubgroup ((binsOf cfg df).get ⟨j, hj⟩).1 (1 + j)
          ((binsOf cfg df).get ⟨j, hj⟩).2).length = 1 := by
        rw [markSubgroup_length, hr1]
        rfl
      obtain ⟨x, hx⟩ := List.length_eq_one.mp hlen1
      refine ⟨x, by rw [hfe]; exact hx, ?_⟩
      have hmq := markSubgroup_map_q ((binsOf cfg df).get ⟨j, hj⟩).1 (1 + j)
        ((binsOf cfg df).get ⟨j, hj⟩).2
      rw [hx, hr1] at hmq
      simp only [List.map_cons, List.map_nil] at hmq
      injection hmq with hq1 _
      rw [hq1, ← hgd]
      exact hqr

/-- Witness for C2 on the concrete three-record table. -/
theorem C2_witness :
    ((wCut.map coreOfCut).Perm (wDf.map coreOfRow)) ∧
    ∀ i : Nat, (∃ x ∈ wCut, x.cutoff_id = i) →
      ∃ ft cap, defaultConfig.capacity ft = some cap ∧
        (∀ x ∈ wCut.filter (fun x => x.cutoff_id = i), x.form_type = ft) ∧
        (2 ≤ (wCut.filter (fun x => x.cutoff_id = i)).length →
          ((wCut.filter (fun x => x.cutoff_id = i)).map qcv).sum ≤ cap) ∧
        (cap < ((wCut.filter (fun x => x.cutoff_id = i)).map qcv).sum →
          ∃ x, wCut.filter (fun x => x.cutoff_id = i) = [x] ∧ cap < qcv x) :=
  C2_capacity_invariant defaultConfig wDf wCut (assign_cutoffs_staged (by unfold CfgOk; decide))

/-- C3: in every successful output of the cutoff assignment, under a
configuration whose cutoff-type constants are all nonzero, every cutoff has
exactly one member with cutoff type 0; that member is the first, in bin
order, among the members of maximal length, and every other member carries
the configured nonzero cutoff-type constant of its form type. -/
theorem C3_unique_reference (cfg : Config) (df : List Row) (out : List CutRow)
    (h : assign_cutoffs cfg df = .ok out)
    (hnz : ∀ ft v, cfg.ctype ft = some v → v ≠ 0) :
    ∀ (i : Nat) (bin : List CutRow), bin = out.filter (fun x => x.cutoff_id = i) →
      (∃ x ∈ out, x.cutoff_id = i) →
      ((bin.filter (fun x => x.cutoff_type = 0)).length = 1 ∧
        ∃ j, ∃ hj : j < bin.length,
          (bin.get ⟨j, hj⟩).cutoff_type = 0 ∧
          (∀ k, ∀ hk : k < bin.length,
            (bin.get ⟨k, hk⟩).length_m ≤ (bin.get ⟨j, hj⟩).length_m) ∧
          (∀ k, ∀ hk : k < bin.length, k < j →
            (bin.get ⟨k, hk⟩).length_m < (bin.get ⟨j, hj⟩).length_m) ∧
          (∀ k, ∀ hk : k < bin.length, k ≠ j →
            cfg.ctype (bin.get ⟨k, hk⟩).form_type = some (bin.get ⟨k, hk⟩).cutoff_type ∧
            (bin.get ⟨k, hk⟩).cutoff_type ≠ 0)) := by
  have hok := assign_ok_cfgOk h
  rw [assign_cutoffs_staged hok] at h
  injection h with h
  subst h
  intro i bin hbin hex
  obtain ⟨x0, hx0, hid0⟩ := hex
  obtain ⟨hlb, hub⟩ := emitAll_id_bounds (binsOf cfg df) 1 x0 hx0
  obtain ⟨j', rfl⟩ : ∃ j', i = 1 + j' := ⟨i - 1, by omega⟩
  have hj' : j' < (binsOf cfg df).length := by omega
  have hfe := emitAll_filter_eq (binsOf cfg df) 1 j' hj'
  rw [hfe] at hbin
  subst hbin
  have htb : (binsOf cfg df).get ⟨j', hj'⟩ ∈ binsOf cfg df := List.get_mem _ _ _
  obtain ⟨hne, ft, w, hall, hct, hcap⟩ := binsOf_mem htb
  obtain ⟨r0, hr0⟩ := List.exists_mem_of_ne_nil _ hne
  have hts : (cfg.ctype ft).isSome := by
    rw [← (hall r0 hr0).1]
    exact (hok r0 (hall r0 hr0).2.2).2.1
  obtain ⟨v, hv⟩ := Option.isSome_iff_exists.mp hts
  have htv : ((binsOf cfg df).get ⟨j', hj'⟩).1 = v := by rw [hct, hv]; rfl
  have hvnz : v ≠ 0 := hnz ft v hv
  obtain ⟨hm, hmax, hfirst⟩ := maxLenIdx_spec hne
  have hlen : (markSubgroup ((binsOf cfg df).get ⟨j', hj'⟩).1 (1 + j')
      ((binsOf cfg df).get ⟨j', hj'⟩).2).length =
      ((binsOf cfg df).get ⟨j', hj'⟩).2.length := markSubgroup_length _ _ _
  have hget : ∀ k, ∀ hk : k < (markSubgroup ((binsOf cfg df).get ⟨j', hj'⟩).1 (1 + j')
      ((binsOf cfg df).get ⟨j', hj'⟩).2).length, ∀ hk2 : k < ((binsOf cfg df).get ⟨j', hj'⟩).2.length,
      ((markSubgroup ((binsOf cfg df).get ⟨j', hj'⟩).1 (1 + j')
        ((binsOf cfg df).get ⟨j', hj'⟩).2).get ⟨k, hk⟩).cutoff_type =
        (if k = maxLenIdx ((binsOf cfg df).get ⟨j', hj'⟩).2 then 0
          else ((binsOf cfg df).get ⟨j', hj'⟩).1) ∧
      ((markSubgroup ((binsOf cfg df).get ⟨j', hj'⟩).1 (1 + j')
        ((binsOf cfg df).get ⟨j', hj'⟩).2).get ⟨k, hk⟩).length_m =
        (((binsOf cfg df).get ⟨j', hj'⟩).2.get ⟨k, hk2⟩).length_m ∧
      ((markSubgroup ((binsOf cfg df).get ⟨j', hj'⟩).1 (1 + j')
        ((binsOf cfg df).get ⟨j', hj'⟩).2).get ⟨k, hk⟩).form_type =
        (((binsOf cfg df).get ⟨j', hj'⟩).2.get ⟨k, hk2⟩).form_type := by
    intro k hk hk2
    rw [List.get_eq_getElem, markSubgroup_getElem]
    exact ⟨rfl, rfl, rfl⟩
  have hjb : maxLenIdx ((binsOf cfg df).get ⟨j', hj'⟩).2 <
      (markSubgroup ((binsOf cfg df).get ⟨j', hj'⟩).1 (1 + j')
        ((binsOf cfg df).get ⟨j', hj'⟩).2).length := by
    rw [hlen]
    exact hm
  refine ⟨?_, maxLenIdx ((binsOf cfg df).get ⟨j', hj'⟩).2, hjb, ?_, ?_, ?_, ?_⟩
  · apply filter_length_one_of_unique _ _ (maxLenIdx ((binsOf cfg df).get ⟨j', hj'⟩).2) hjb
    · obtain ⟨hc1, _, _⟩ := hget _ hjb hm
      rw [hc1, if_pos rfl]
      rfl
    · intro k hk hkj
      have hk2 : k < ((binsOf cfg df).get ⟨j', hj'⟩).2.length := by rw [← hlen]; exact hk
      obtain ⟨hc1, _, _⟩ := hget k hk hk2
      rw [hc1, if_neg hkj, htv]
      simp [hvnz]
  · obtain ⟨hc1, _, _⟩ := hget _ hjb hm
    rw [hc1, if_pos rfl]
  · intro k hk
    have hk2 : k < ((binsOf cfg df).get ⟨j', hj'⟩).2.length := by rw [← hlen]; exact hk
    obtain ⟨_, hl1, _⟩ := hget k hk hk2
    obtain ⟨_, hl2, _⟩ := hget _ hjb hm
    rw [hl1, hl2]
    exact hmax k hk2
  · intro k hk hkj
    have hk2 : k < ((binsOf cfg df).get ⟨j', hj'⟩).2.length := by rw [← hlen]; exact hk
    obtain ⟨_, hl1, _⟩ := hget k hk hk2
    obtain ⟨_, hl2, _⟩ := hget _ hjb hm
    rw [hl1, hl2]
    exact hfirst k hk2 hkj
  · intro k hk hkj
    have hk2 : k < ((binsOf cfg df).get ⟨j', hj'⟩).2.length := by rw [← hlen]; exact hk
    obtain ⟨hc1, _, hf1⟩ := hget k hk hk2
    have hfk : (((binsOf cfg df).get ⟨j', hj'⟩).2.get ⟨k, hk2⟩).form_type = ft :=
      (hall _ (List.get_mem _ _ _)).1
    rw [hc1, if_neg hkj, hf1, hfk, htv]
    exact ⟨hv, hvnz⟩

/-- Witness for C3 on the concrete three-record table, cutoff id 1. -/
theorem C3_witness :
    ((wCut.filter (fun x => x.cutoff_id = 1)).filter
        (fun x => x.cutoff_type = 0)).length = 1 ∧
      ∃ j, ∃ hj : j < (wCut.filter (fun x => x.cutoff_id = 1)).length,
        ((wCut.filter (fun x => x.cutoff_id = 1)).get ⟨j, hj⟩).cutoff_type = 0 ∧
        (∀ k, ∀ hk : k < (wCut.filter (fun x => x.cutoff_id = 1)).length,
          ((wCut.filter (fun x => x.cutoff_id = 1)).get ⟨k, hk⟩).length_m ≤
            ((wCut.filter (fun x => x.cutoff_id = 1)).get ⟨j, hj⟩).length_m) ∧
        (∀ k, ∀ hk : k < (wCut.filter (fun x => x.cutoff_id = 1)).length, k < j →
          ((wCut.filter (fun x => x.cutoff_id = 1)).get ⟨k, hk⟩).length_m <
            ((wCut.filter (fun x => x.cutoff_id = 1)).get ⟨j, hj⟩).length_m) ∧
        (∀ k, ∀ hk : k < (wCut.filter (fun x => x.cutoff_id = 1)).length, k ≠ j →
          defaultConfig.ctype
              ((wCut.filter (fun x => x.cutoff_id = 1)).get ⟨k, hk⟩).form_type =
            some ((wCut.filter (fun x => x.cutoff_id = 1)).get ⟨k, hk⟩).cutoff_type ∧
          ((wCut.filter (fun x => x.cutoff_id = 1)).get ⟨k, hk⟩).cutoff_type ≠ 0) :=
  C3_unique_reference defaultConfig wDf wCut (assign_cutoffs_staged (by unfold CfgOk; decide))
    (by
      intro ft v hv
      unfold defaultConfig at hv
      dsimp only at hv
      by_cases h1 : ft = 1
      · rw [if_pos h1] at hv
        injection hv with hv
        omega
      · rw [if_neg h1] at hv
        by_cases h2 : ft = 2
        · rw [if_pos h2] at hv
          injection hv with hv
          omega
        · rw [if_neg h2] at hv
          by_cases h3 : ft = 3
          · rw [if_pos h3] at hv
            injection hv with hv
            omega
          · rw [if_neg h3] at hv
            exact Option.noConfusion hv)
    1 (wCut.filter (fun x => x.cutoff_id = 1)) rfl
    (by with_unfolding_all decide)

/-- C4: across one successful run of the cutoff assignment, the assigned
cutoff ids are exactly the contiguous range 1..N where N is the number of
closed bins, with no gaps and no repeats, and they appear in nondecreasing
order across the output (groups in ascending key order, bins within a group
in closing order). -/
theorem C4_sequential_ids (cfg : Config) (df : List Row) (out : List CutRow)
    (h : assign_cutoffs cfg df = .ok out) :
    ∃ N : Nat, N = (binsOf cfg df).length ∧
      (∀ i : Nat, (∃ x ∈ out, x.cutoff_id = i) ↔ (1 ≤ i ∧ i ≤ N)) ∧
      List.Pairwise (fun a b => a ≤ b) (out.map (fun x => x.cutoff_id)) := by
  have hok := assign_ok_cfgOk h
  rw [assign_cutoffs_staged hok] at h
  injection h with h
  subst h
  refine ⟨(binsOf cfg df).length, rfl, ?_, emitAll_ids_pairwise _ 1⟩
  intro i
  constructor
  · rintro ⟨x, hx, hid⟩
    obtain ⟨h1, h2⟩ := emitAll_id_bounds (binsOf cfg df) 1 x hx
    omega
  · rintro ⟨h1, h2⟩
    obtain ⟨x, hx, hid⟩ := emitAll_id_exists (binsOf cfg df) 1 (i - 1) (by omega)
      (fun b hb => (binsOf_mem hb).1)
    exact ⟨x, hx, by omega⟩

/-- Witness for C4 on the concrete three-record table. -/
theorem C4_witness :
    ∃ N : Nat, N = (binsOf defaultConfig wDf).length ∧
      (∀ i : Nat, (∃ x ∈ wCut, x.cutoff_id = i) ↔ (1 ≤ i ∧ i ≤ N)) ∧
      List.Pairwise (fun a b => a ≤ b) (wCut.map (fun x => x.cutoff_id)) :=
  C4_sequential_ids defaultConfig wDf wCut (assign_cutoffs_staged (by unfold CfgOk; decide))

/-- C5 (corrected): the identifier parser succeeds exactly when some prefix
of the string, anchored at the start, matches the grammar — the source
pattern carries no end anchor, so a string with extra characters after a
matching prefix is accepted rather than rejected; on failure the parser
reports an error naming the offending identifier. -/
theorem C5_match_semantics (s : String) :
    ((parse_item_name s).isOk = true ↔ GrammarStartMatch s.toList) ∧
      ((parse_item_name s).isOk = false →
        parse_item_name s = .error ("Некорректный формат названия: " ++ s)) :=
  ⟨parse_isOk_iff s, parse_error_of_not_ok s⟩

/-- Witness for C5 at a concrete identifier. -/
theorem C5_witness :
    ((parse_item_name "a_1x2x3_4").isOk = true ↔ GrammarStartMatch "a_1x2x3_4".toList) ∧
      ((parse_item_name "a_1x2x3_4").isOk = false →
        parse_item_name "a_1x2x3_4" =
          .error ("Некорректный формат названия: " ++ "a_1x2x3_4")) :=
  C5_match_semantics "a_1x2x3_4"

/-- Counterexample to the claimed full-match semantics: the parser accepts
an identifier with a trailing character after the matching prefix, although
the whole string does not conform to the grammar. -/
theorem C5_counterexample :
    (parse_item_name "a_1x2x3_4x").isOk = true ∧ ¬ GrammarFull "a_1x2x3_4x".toList := by
  constructor
  · with_unfolding_all decide
  · intro h
    obtain ⟨c, hc, hd⟩ := grammarFull_last_digit h
    have hx : ("a_1x2x3_4x".toList).getLast? = some 'x' := by decide
    rw [hx] at hc
    injection hc with hc
    rw [← hc] at hd
    exact absurd hd (by decide)

/-- C6 (corrected): processing a record table aborts exactly when some
record has a form type without a configured capacity or cutoff-type
constant, or a non-numeric quantity, or the table is empty (the zero-row
frame built by the cutoff assignment has no columns, so reading the width
column raises a KeyError); processing a token text aborts exactly when the
text has no tokens or some token is malformed or references an
unconfigured form type.  The quantity sign is never checked: a
non-positive numeric quantity does not abort (see the counterexample). -/
theorem C6_abort_conditions (cfg : Config) (df : List Row) (content : String) :
    ((process_table cfg df).isOk = true ↔ (CfgOk cfg df ∧ df ≠ [])) ∧
      ((process_file_txt cfg content).isOk = true ↔
        (tokensOf content ≠ [] ∧ ∀ t ∈ tokensOf content,
          ∃ sp, parse_item_name t = .ok sp ∧
            (cfg.capacity sp.form_type).isSome ∧ (cfg.ctype sp.form_type).isSome)) :=
  ⟨process_table_isOk_iff cfg df, process_file_txt_isOk_iff cfg content⟩

/-- Witness for C6 at the concrete table and token text. -/
theorem C6_witness :
    ((process_table defaultConfig wDf).isOk = true ↔
        (CfgOk defaultConfig wDf ∧ wDf ≠ [])) ∧
      ((process_file_txt defaultConfig wTxt).isOk = true ↔
        (tokensOf wTxt ≠ [] ∧ ∀ t ∈ tokensOf wTxt,
          ∃ sp, parse_item_name t = .ok sp ∧
            (defaultConfig.capacity sp.form_type).isSome ∧
            (defaultConfig.ctype sp.form_type).isSome)) :=
  C6_abort_conditions defaultConfig wDf wTxt

/-- Counterexample to the claimed non-positive-quantity abort: a record with
quantity 0 is processed successfully. -/
theorem C6_counterexample :
    zRow.quantity = some 0 ∧ (process_table defaultConfig [zRow]).isOk = true :=
  ⟨rfl, (process_table_isOk_iff defaultConfig [zRow]).mpr
    ⟨by unfold CfgOk; decide, List.cons_ne_nil zRow []⟩⟩

/-- C7: successful token-list ingestion is the per-unique-identifier record
construction, applied once per unique token in first-occurrence order: the
call equals mapping the record builder over the deduplicated token list
with each occurrence count, every token parses, the output has one record
per unique identifier, and every output record carries as its quantity the
occurrence count of the token it was built from; a malformed token makes
the whole call fail (contrapositively: success implies every token
parses). -/
theorem C7_token_ingestion (content : String) (rows : List Row)
    (h : parse_txt_file content = .ok rows) :
    parse_txt_file content =
      (dedupFirst (tokensOf content)).mapM
        (fun t => recordOfItem t ((tokensOf content).count t)) ∧
    (∀ t ∈ tokensOf content, (parse_item_name t).isOk = true) ∧
    rows.length = (dedupFirst (tokensOf content)).length ∧
    (∀ r ∈ rows, ∃ t ∈ tokensOf content,
      recordOfItem t ((tokensOf content).count t) = .ok r ∧
      r.quantity = some (((tokensOf content).count t : Nat) : Int)) := by
  have heq := parse_txt_file_eq content
  have hM : (dedupFirst (tokensOf content)).mapM
      (fun t => recordOfItem t ((tokensOf content).count t)) = .ok rows :=
    heq.symm.trans h
  refine ⟨heq, ?_, mapM_ok_length hM, ?_⟩
  · intro t ht
    obtain ⟨r, _, hrec⟩ := mapM_ok_mem_rev hM t ((dedupFirst_mem _ t).mpr ht)
    have hro : (recordOfItem t ((tokensOf content).count t)).isOk = true := by
      rw [hrec]
      rfl
    rw [recordOfItem_isOk] at hro
    exact hro
  · intro r hr
    obtain ⟨t, htD, hrec⟩ := mapM_ok_mem hM r hr
    obtain ⟨sp, _, _, hq⟩ := recordOfItem_ok_inv hrec
    exact ⟨t, (dedupFirst_mem _ t).mp htD, hrec, hq⟩

/-- Witness for C7 on a concrete three-token text with a repeated token. -/
theorem C7_witness :
    parse_txt_file wTxt =
      (dedupFirst (tokensOf wTxt)).mapM
        (fun t => recordOfItem t ((tokensOf wTxt).count t)) ∧
    (∀ t ∈ tokensOf wTxt, (parse_item_name t).isOk = true) ∧
    ((parse_txt_file wTxt).toOption.getD []).length = (dedupFirst (tokensOf wTxt)).length ∧
    (∀ r ∈ (parse_txt_file wTxt).toOption.getD [], ∃ t ∈ tokensOf wTxt,
      recordOfItem t ((tokensOf wTxt).count t) = .ok r ∧
      r.quantity = some (((tokensOf wTxt).count t : Nat) : Int)) :=
  C7_token_ingestion wTxt ((parse_txt_file wTxt).toOption.getD [])
    (except_ok_getD _ [] (by with_unfolding_all decide))

/-- C8: on an identifier that fully matches the grammar, parsing succeeds,
and reconstructing name_WIDTHxLENGTHxPROJECTION_FORMTYPE from the parsed
fields yields an identifier that parses back to exactly the same fields:
the numeric components are reproduced and the name is preserved verbatim. -/
theorem C8_parse_roundtrip (s : String) (h : GrammarFull s.toList) :
    ∃ sp, parse_item_name s = .ok sp ∧
      parse_item_name (reconstructIdent sp) = .ok sp := by
  have hsm : GrammarStartMatch s.toList := ⟨s.toList, [], by simp, h⟩
  have hok := (parse_isOk_iff s).mpr hsm
  cases hp : parse_item_name s with
  | error e =>
    rw [hp] at hok
    exact Bool.noConfusion hok
  | ok sp =>
    refine ⟨sp, rfl, ?_⟩
    obtain ⟨n, d1, d2, d3, d4, _, hsp, hne, hw⟩ := parse_ok_inv hp
    subst hsp
    exact parse_reconstruct (natOfDigits d1) (natOfDigits d2) (natOfDigits d3)
      (natOfDigits d4) hne hw

/-- Witness for C8 at a concrete grammar-conforming identifier. -/
theorem C8_witness :
    ∃ sp, parse_item_name "a_1x2x3_4" = .ok sp ∧
      parse_item_name (reconstructIdent sp) = .ok sp :=
  C8_parse_roundtrip "a_1x2x3_4"
    ⟨['a'], ['1'], ['2'], ['3'], ['4'], by decide, by decide, by unfold DigitGroups; decide, by decide⟩

/-- C9: in every successful pipeline output row, the unroll area is
round(width times length, 2), the total area is round(unroll area times
quantity, 2), and the projection area is round(length times projection
times quantity, 2), with round modelled as round-half-to-even at two
decimal places over exact rationals. -/
theorem C9_derived_metrics (cfg : Config) (df : List Row) (out : List FinalRow)
    (h : process_table cfg df = .ok out) :
    ∀ x ∈ out, x.unroll_m2 = round2 (x.width_m * x.length_m) ∧
      ∃ q : Int, x.quantity = some q ∧
        x.total_area_m2 = round2 (x.unroll_m2 * (q : ℚ)) ∧
        x.projection_area_m2 = round2 (x.length_m * x.projection_m * (q : ℚ)) := by
  unfold process_table at h
  cases ha : assign_cutoffs cfg df with
  | error e =>
    rw [ha, except_bind_err] at h
    exact Except.noConfusion h
  | ok cut =>
    rw [ha, except_bind_ok] at h
    by_cases hcne : cut = []
    · rw [hcne, calculate_derived_columns_nil, except_bind_err] at h
      exact Except.noConfusion h
    · rw [calculate_derived_columns_of_ne_nil hcne, except_bind_ok] at h
      injection h with h
      subst h
      intro x hx
      obtain ⟨r, hr, hxr⟩ := List.mem_map.mp hx
      obtain ⟨q, hq⟩ := Option.isSome_iff_exists.mp (assign_ok_out_quantity ha r hr)
      subst hxr
      refine ⟨rfl, q, hq, ?_, ?_⟩
      · show round2 (round2 (r.width_m * r.length_m) * qcell r.quantity) = _
        rw [hq]
        rfl
      · show round2 (r.length_m * r.projection_m * qcell r.quantity) = _
        rw [hq]
        rfl

/-- Witness for C9 at the first output row of the concrete table. -/
theorem C9_witness :
    (wOut.headD ⟨"", "", none, 0, 0, 0, 0, 0, 0, 0, 0, 0⟩).unroll_m2 =
        round2 ((wOut.headD ⟨"", "", none, 0, 0, 0, 0, 0, 0, 0, 0, 0⟩).width_m *
          (wOut.headD ⟨"", "", none, 0, 0, 0, 0, 0, 0, 0, 0, 0⟩).length_m) ∧
      ∃ q : Int, (wOut.headD ⟨"", "", none, 0, 0, 0, 0, 0, 0, 0, 0, 0⟩).quantity = some q ∧
        (wOut.headD ⟨"", "", none, 0, 0, 0, 0, 0, 0, 0, 0, 0⟩).total_area_m2 =
          round2 ((wOut.headD ⟨"", "", none, 0, 0, 0, 0, 0, 0, 0, 0, 0⟩).unroll_m2 * (q : ℚ)) ∧
        (wOut.headD ⟨"", "", none, 0, 0, 0, 0, 0, 0, 0, 0, 0⟩).projection_area_m2 =
          round2 ((wOut.headD ⟨"", "", none, 0, 0, 0, 0, 0, 0, 0, 0, 0⟩).length_m *
            (wOut.headD ⟨"", "", none, 0, 0, 0, 0, 0, 0, 0, 0, 0⟩).projection_m * (q : ℚ)) :=
  C9_derived_metrics defaultConfig wDf wOut
    (except_ok_getD _ [] ((process_table_isOk_iff defaultConfig wDf).mpr
      ⟨by unfold CfgOk; decide, by unfold wDf; exact List.cons_ne_nil _ _⟩))
    (wOut.headD ⟨"", "", none, 0, 0, 0, 0, 0, 0, 0, 0, 0⟩) (by with_unfolding_all decide)

/-- C10: on an input text with no tokens, ingestion returns the empty record
list (a table with zero rows), and the whole call then fails with the key
lookup error of the missing sort column rather than returning an empty
output table. -/
theorem C10_empty_input_error (cfg : Config) (content : String)
    (h : tokensOf content = []) :
    parse_txt_file content = .ok [] ∧
      process_file_txt cfg content = .error "KeyError: 'Тип формы'" := by
  have hp := parse_txt_file_nil h
  refine ⟨hp, ?_⟩
  unfold process_file_txt
  rw [hp, except_bind_ok]
  rfl

/-- Witness for C10 on the empty input text. -/
theorem C10_witness :
    parse_txt_file "" = .ok [] ∧
      process_file_txt defaultConfig "" = .error "KeyError: 'Тип формы'" :=
  C10_empty_input_error defaultConfig "" (by decide)

end Vedo
